import Mathlib

/-!
Shallow embedding of a hash-table engine: direct addressing, open addressing
with linear, quadratic and double-hash probing, and separate chaining, plus the
accompanying hash-function library.  Conventions of the embedding:

* Python integers are Int, array indices are Nat.  Python floor-mod on a
  positive modulus agrees with Int.emod, which is what the percent operator
  denotes on Int here.
* The floating-point load-factor threshold and the load factor itself are
  modelled as rationals; all concrete thresholds appearing below (3/4, 1) are
  exactly representable as floats, so the comparisons agree with the source.
* A raised exception (ValueError, RuntimeError) is modelled by Option: none
  means the call did not return normally.
* The mutually recursive pair insert/resize of the two resizable tables is
  modelled with an explicit fuel argument that is spent only when insert
  re-enters itself through a resize; the source always terminates, and every
  statement below quantifies over the fuel or fixes a sufficient one.
-/

namespace HashSpec

/-! ### List access helpers -/

theorem getD_oob {α : Type} : ∀ (l : List α) (i : Nat) (d : α), l.length ≤ i → l.getD i d = d := by
  intro l
  induction l with
  | nil => intro i d _; cases i <;> rfl
  | cons a l ih =>
    intro i d h
    cases i with
    | zero => simp at h
    | succ n => simpa using ih n d (by simpa using h)

theorem lt_length_of_getD_ne {α : Type} (l : List α) (i : Nat) (d : α)
    (h : l.getD i d ≠ d) : i < l.length := by
  by_contra hc
  exact h (getD_oob l i d (by omega))

theorem getD_set_self {α : Type} : ∀ (l : List α) (i : Nat) (a d : α), i < l.length →
    (l.set i a).getD i d = a := by
  intro l
  induction l with
  | nil => intro i a d h; simp at h
  | cons b l ih =>
    intro i a d h
    cases i with
    | zero => rfl
    | succ n => simpa using ih n a d (by simpa using h)

theorem getD_set_ne {α : Type} : ∀ (l : List α) (i j : Nat) (a d : α), i ≠ j →
    (l.set i a).getD j d = l.getD j d := by
  intro l
  induction l with
  | nil => intro i j a d _; rfl
  | cons b l ih =>
    intro i j a d hij
    cases i with
    | zero =>
      cases j with
      | zero => exact absurd rfl hij
      | succ m => simp
    | succ n =>
      cases j with
      | zero => simp
      | succ m => simpa using ih n m a d (by omega)

theorem getD_replicate {α : Type} : ∀ (n i : Nat) (x d : α), i < n →
    (List.replicate n x).getD i d = x := by
  intro n
  induction n with
  | zero => intro i x d h; omega
  | succ m ih =>
    intro i x d h
    cases i with
    | zero => rfl
    | succ j => simpa [List.replicate] using ih j x d (by omega)

theorem getD_replicate_any {α : Type} : ∀ (n i : Nat) (x : α),
    (List.replicate n x).getD i x = x := by
  intro n i x
  by_cases h : i < n
  · exact getD_replicate n i x x h
  · exact getD_oob _ _ _ (by simp; omega)

theorem getD_mem {α : Type} (l : List α) (i : Nat) (d : α) (h : i < l.length) :
    l.getD i d ∈ l := by
  induction l generalizing i with
  | nil => simp at h
  | cons a l ih =>
    cases i with
    | zero => simp
    | succ n => simpa using Or.inr (ih n (by simpa using h))

theorem countP_set_incr {α : Type} (p : α → Bool) :
    ∀ (l : List α) (i : Nat) (a d : α), i < l.length → p (l.getD i d) = false → p a = true →
    (l.set i a).countP p = l.countP p + 1 := by
  intro l
  induction l with
  | nil => intro i a d h; simp at h
  | cons b l ih =>
    intro i a d h hold hnew
    cases i with
    | zero =>
      simp only [List.getD_cons_zero] at hold
      simp [List.countP_cons, hold, hnew]
    | succ n =>
      have := ih n a d (by simpa using h) (by simpa using hold) hnew
      simp only [List.set_cons_succ, List.countP_cons, this]
      omega

theorem countP_set_same {α : Type} (p : α → Bool) :
    ∀ (l : List α) (i : Nat) (a d : α), i < l.length → p (l.getD i d) = p a →
    (l.set i a).countP p = l.countP p := by
  intro l
  induction l with
  | nil => intro i a d h; simp at h
  | cons b l ih =>
    intro i a d h heq
    cases i with
    | zero =>
      simp only [List.getD_cons_zero] at heq
      simp [List.countP_cons, heq]
    | succ n =>
      have := ih n a d (by simpa using h) (by simpa using heq)
      simp [List.countP_cons, this]

theorem countP_set_decr {α : Type} (p : α → Bool) :
    ∀ (l : List α) (i : Nat) (a d : α), i < l.length → p (l.getD i d) = true → p a = false →
    l.countP p = (l.set i a).countP p + 1 := by
  intro l
  induction l with
  | nil => intro i a d h; simp at h
  | cons b l ih =>
    intro i a d h hold hnew
    cases i with
    | zero =>
      simp only [List.getD_cons_zero] at hold
      simp [List.countP_cons, hold, hnew]
    | succ n =>
      have := ih n a d (by simpa using h) (by simpa using hold) hnew
      simp only [List.set_cons_succ, List.countP_cons, this]
      omega

theorem sum_map_set {α : Type} (f : α → Nat) :
    ∀ (l : List α) (i : Nat) (a d : α), i < l.length →
    ((l.set i a).map f).sum + f (l.getD i d) = (l.map f).sum + f a := by
  intro l
  induction l with
  | nil => intro i a d h; simp at h
  | cons b l ih =>
    intro i a d h
    cases i with
    | zero => simp [Nat.add_comm, Nat.add_left_comm]
    | succ n =>
      have := ih n a d (by simpa using h)
      simp only [List.set_cons_succ, List.map_cons, List.sum_cons, List.getD_cons_succ]
      omega

/-! ### Hash function library, from hash_functions.py -/

/-- Division method hash function, h(k) = k mod m.  Python floor-mod on a
positive table size agrees with Int.emod. -/
def division_hash (key : Int) (table_size : Int) : Int :=
  key % table_size

/-- Universal hash function, h(k) = ((a*k + b) mod p) mod m.  It exists in the
library but is absent from the name registry of get_hash_function. -/
def universal_hash (key : Int) (table_size : Int) (a b p : Int) : Int :=
  ((a * key + b) % p) % table_size

/-- Degenerate clustering hash, (key * table_size) mod table_size. -/
def bad_hash_clustering (key : Int) (table_size : Int) : Int :=
  (key * table_size) % table_size

/-- Tags for the callables stored in the name registry of get_hash_function.
The registry holds references to seven concrete functions; the tag records
which function a lookup returns. -/
inductive HashChoice : Type
  | division
  | multiplication
  | string_simple
  | string_polynomial
  | string_djb2
  | md5
  | bad_clustering
deriving DecidableEq

/-- The dict literal inside get_hash_function, in source order. -/
def hash_functions_registry : List (String × HashChoice) :=
  [("division", HashChoice.division),
   ("multiplication", HashChoice.multiplication),
   ("string_simple", HashChoice.string_simple),
   ("string_polynomial", HashChoice.string_polynomial),
   ("string_djb2", HashChoice.string_djb2),
   ("md5", HashChoice.md5),
   ("bad_clustering", HashChoice.bad_clustering)]

/-- Name lookup with fall-through to the division hash, modelling
hash_functions.get(hash_type, division_hash). -/
def get_hash_function (hash_type : String) : HashChoice :=
  (((hash_functions_registry.find? (fun p => p.1 = hash_type)).map Prod.snd)).getD
    HashChoice.division

/-! ### Direct-address table, from hash_tables.py -/

/-- Direct-address table: an array of size optional values; a stored value at
index k means key k is present. -/
structure DirectAddressTable (V : Type) where
  size : Nat
  table : List (Option V)
deriving DecidableEq

namespace DirectAddressTable

/-- Constructor: size slots, all empty. -/
def initTable (V : Type) (size : Nat) : DirectAddressTable V :=
  ⟨size, List.replicate size none⟩

/-- insert stores at index key; a key outside the range raises ValueError,
modelled as none (the table is not mutated on that path in the source). -/
def insert {V : Type} (st : DirectAddressTable V) (key : Int) (value : V) :
    Option (DirectAddressTable V) :=
  if 0 ≤ key ∧ key < (st.size : Int) then
    some { st with table := st.table.set key.toNat (some value) }
  else
    none

/-- search returns the stored value, or none when the slot is empty or the key
is out of range (no error on that path). -/
def search {V : Type} (st : DirectAddressTable V) (key : Int) : Option V :=
  if 0 ≤ key ∧ key < (st.size : Int) then
    st.table.getD key.toNat none
  else
    none

/-- delete clears the slot when the key is in range and is a no-op otherwise. -/
def delete {V : Type} (st : DirectAddressTable V) (key : Int) : DirectAddressTable V :=
  if 0 ≤ key ∧ key < (st.size : Int) then
    { st with table := st.table.set key.toNat none }
  else
    st

/-- Sequencing of inserts; none as soon as one raises. -/
def insertList {V : Type} : DirectAddressTable V → List (Int × V) →
    Option (DirectAddressTable V)
  | st, [] => some st
  | st, p :: es => (insert st p.1 p.2).bind (fun st1 => insertList st1 es)

end DirectAddressTable

/-! ### Open addressing, from hash_tables.py -/

/-- A slot of the backing array: None, the DELETED sentinel, or a key-value
pair. -/
inductive Slot (V : Type) : Type
  | empty
  | deleted
  | occupied (key : Int) (value : V)
deriving DecidableEq

/-- State of HashTableOpenAddressing.  The hash function, probe type and
threshold are configuration fixed at construction; they are passed to each
operation instead of being stored, so the state is pure data. -/
structure HashTableOpenAddressing (V : Type) where
  size : Nat
  count : Nat
  table : List (Slot V)
  probe_count : Nat
  comparison_count : Nat
deriving DecidableEq

/-- The three probing strategies. -/
inductive ProbeType : Type
  | linear
  | quadratic
  | double
deriving DecidableEq

namespace HashTableOpenAddressing

/-- Probe sequence index.  Linear: (h1 + i) mod m.  Quadratic: (h1 + i + i*i)
mod m with c1 = c2 = 1.  Double: (h1 + i * (1 + k mod (m-1))) mod m; for m = 1
the source raises ZeroDivisionError while Int.emod by zero returns the
dividend, a corner no statement below depends on.  The final mod makes the
result a valid index whenever 0 < m, whatever the hash function returns. -/
def probeIdx (hf : Int → Int → Int) (pt : ProbeType) (size : Nat) (key : Int) (i : Nat) : Nat :=
  let h1 := hf key (size : Int)
  let j : Int :=
    match pt with
    | ProbeType.linear => (h1 + (i : Int)) % (size : Int)
    | ProbeType.quadratic => (h1 + (i : Int) + (i : Int) * (i : Int)) % (size : Int)
    | ProbeType.double => (h1 + (i : Int) * (1 + key % ((size : Int) - 1))) % (size : Int)
  j.toNat

theorem probeIdx_lt (hf : Int → Int → Int) (pt : ProbeType) (size : Nat) (key : Int) (i : Nat)
    (hs : 0 < size) : probeIdx hf pt size key i < size := by
  have hs' : (0 : Int) < (size : Int) := by exact_mod_cast hs
  have hne : (size : Int) ≠ 0 := by omega
  unfold probeIdx
  cases pt
  case linear =>
    have h1 := Int.emod_nonneg (hf key (size : Int) + (i : Int)) hne
    have h2 := Int.emod_lt_of_pos (hf key (size : Int) + (i : Int)) hs'
    simp only []
    omega
  case quadratic =>
    have h1 := Int.emod_nonneg (hf key (size : Int) + (i : Int) + (i : Int) * (i : Int)) hne
    have h2 := Int.emod_lt_of_pos (hf key (size : Int) + (i : Int) + (i : Int) * (i : Int)) hs'
    simp only []
    omega
  case double =>
    have h1 := Int.emod_nonneg
      (hf key (size : Int) + (i : Int) * (1 + key % ((size : Int) - 1))) hne
    have h2 := Int.emod_lt_of_pos
      (hf key (size : Int) + (i : Int) * (1 + key % ((size : Int) - 1))) hs'
    simp only []
    omega

/-- Constructor state: size empty slots, zero count and counters. -/
def initTable (V : Type) (size : Nat) : HashTableOpenAddressing V :=
  ⟨size, 0, List.replicate size Slot.empty, 0, 0⟩

/-- Current load factor, count / size, as an exact rational. -/
def load_factor {V : Type} (st : HashTableOpenAddressing V) : ℚ :=
  (st.count : ℚ) / (st.size : ℚ)

/-- The insert probing loop, i the current probe number and r the remaining
iterations of while i < size; none models the RuntimeError "Hash table is
full".  Each iteration increments the probe counter, then an occupied slot
costs one key comparison; an empty or DELETED slot receives the new entry and
increments count, a matching key is updated in place without touching count. -/
def insertLoop {V : Type} (hf : Int → Int → Int) (pt : ProbeType) :
    HashTableOpenAddressing V → Int → V → Nat → Nat → Option (HashTableOpenAddressing V)
  | _, _, _, _, 0 => none
  | st, k, v, i, r + 1 =>
    let idx := probeIdx hf pt st.size k i
    let st1 := { st with probe_count := st.probe_count + 1 }
    match st1.table.getD idx Slot.empty with
    | Slot.empty =>
      some { st1 with table := st1.table.set idx (Slot.occupied k v), count := st1.count + 1 }
    | Slot.deleted =>
      some { st1 with table := st1.table.set idx (Slot.occupied k v), count := st1.count + 1 }
    | Slot.occupied k2 _ =>
      if k2 = k then
        some { st1 with table := st1.table.set idx (Slot.occupied k v),
                        comparison_count := st1.comparison_count + 1 }
      else
        insertLoop hf pt { st1 with comparison_count := st1.comparison_count + 1 } k v (i + 1) r

/-- The live (non-deleted) entries of the backing array, in slot order: the
entries the resize loop re-inserts. -/
def liveEntries {V : Type} : List (Slot V) → List (Int × V)
  | [] => []
  | Slot.occupied k v :: rest => (k, v) :: liveEntries rest
  | Slot.empty :: rest => liveEntries rest
  | Slot.deleted :: rest => liveEntries rest

/-- The doubled, empty table the resize starts from; counters carry over. -/
def resizedTable {V : Type} (st : HashTableOpenAddressing V) : HashTableOpenAddressing V :=
  { size := st.size * 2, count := 0, table := List.replicate (st.size * 2) Slot.empty,
    probe_count := st.probe_count, comparison_count := st.comparison_count }

/-- Sequential insertion of a list of entries through a given insert
operation; used by the resize re-hash loop and to state properties of whole
insert sequences. -/
def insertListWith {V : Type}
    (ins : HashTableOpenAddressing V → Int → V → Option (HashTableOpenAddressing V)) :
    HashTableOpenAddressing V → List (Int × V) → Option (HashTableOpenAddressing V)
  | st, [] => some st
  | st, p :: es => (ins st p.1 p.2).bind (fun st1 => insertListWith ins st1 es)

/-- insert.  If count / size has reached the threshold the table is resized
first: the size doubles and every live entry is re-inserted through insert
itself (which may resize again); then the probing loop places the new entry.
Defined by recursion on the fuel spent at each such re-entry, written with
Nat.rec so that the definition reduces in the kernel. -/
def insert {V : Type} (hf : Int → Int → Int) (pt : ProbeType) (t : ℚ) :
    Nat → HashTableOpenAddressing V → Int → V → Option (HashTableOpenAddressing V) :=
  Nat.rec (motive := fun _ => HashTableOpenAddressing V → Int → V →
      Option (HashTableOpenAddressing V))
    (fun _ _ _ => none)
    (fun _fuel ins st k v =>
      (if t ≤ load_factor st then
          insertListWith ins (resizedTable st) (liveEntries st.table)
        else some st).bind
        (fun st1 => insertLoop hf pt st1 k v 0 st1.size))

theorem insert_zero {V : Type} (hf : Int → Int → Int) (pt : ProbeType) (t : ℚ)
    (st : HashTableOpenAddressing V) (k : Int) (v : V) :
    insert hf pt t 0 st k v = none := rfl

theorem insert_succ {V : Type} (hf : Int → Int → Int) (pt : ProbeType) (t : ℚ) (fuel : Nat)
    (st : HashTableOpenAddressing V) (k : Int) (v : V) :
    insert hf pt t (fuel + 1) st k v =
      (if t ≤ load_factor st then
          insertListWith (insert hf pt t fuel) (resizedTable st) (liveEntries st.table)
        else some st).bind
        (fun st1 => insertLoop hf pt st1 k v 0 st1.size) := rfl

/-- The search probing loop; returns the result and the state with updated
counters.  The scan stops and reports not-found at the first empty slot;
DELETED slots and occupied slots with another key each cost one comparison and
the scan goes on. -/
def searchLoop {V : Type} (hf : Int → Int → Int) (pt : ProbeType) :
    HashTableOpenAddressing V → Int → Nat → Nat → Option V × HashTableOpenAddressing V
  | st, _, _, 0 => (none, st)
  | st, k, i, r + 1 =>
    let idx := probeIdx hf pt st.size k i
    let st1 := { st with probe_count := st.probe_count + 1 }
    match st1.table.getD idx Slot.empty with
    | Slot.empty => (none, st1)
    | Slot.deleted =>
      searchLoop hf pt { st1 with comparison_count := st1.comparison_count + 1 } k (i + 1) r
    | Slot.occupied k2 v2 =>
      if k2 = k then
        (some v2, { st1 with comparison_count := st1.comparison_count + 1 })
      else
        searchLoop hf pt { st1 with comparison_count := st1.comparison_count + 1 } k (i + 1) r

/-- search: run the probing loop from i = 0 with at most size iterations. -/
def search {V : Type} (hf : Int → Int → Int) (pt : ProbeType)
    (st : HashTableOpenAddressing V) (k : Int) : Option V × HashTableOpenAddressing V :=
  searchLoop hf pt st k 0 st.size

/-- The delete probing loop.  It touches neither counter, marks a matching
slot DELETED and decrements count; an empty slot or an exhausted budget yields
failure with the state untouched. -/
def deleteLoop {V : Type} (hf : Int → Int → Int) (pt : ProbeType) :
    HashTableOpenAddressing V → Int → Nat → Nat → Bool × HashTableOpenAddressing V
  | st, _, _, 0 => (false, st)
  | st, k, i, r + 1 =>
    let idx := probeIdx hf pt st.size k i
    match st.table.getD idx Slot.empty with
    | Slot.empty => (false, st)
    | Slot.deleted => deleteLoop hf pt st k (i + 1) r
    | Slot.occupied k2 _ =>
      if k2 = k then
        (true, { st with table := st.table.set idx Slot.deleted, count := st.count - 1 })
      else
        deleteLoop hf pt st k (i + 1) r

/-- delete: run the delete loop from i = 0 with at most size iterations. -/
def delete {V : Type} (hf : Int → Int → Int) (pt : ProbeType)
    (st : HashTableOpenAddressing V) (k : Int) : Bool × HashTableOpenAddressing V :=
  deleteLoop hf pt st k 0 st.size

end HashTableOpenAddressing

/-! ### Separate chaining, from hash_tables.py -/

/-- State of HashTableSeparateChaining.  Each bucket is a singly linked chain
of key-value nodes, modelled as a list (head insertion is cons). -/
structure HashTableSeparateChaining (V : Type) where
  size : Nat
  count : Nat
  buckets : List (List (Int × V))
  comparison_count : Nat
deriving DecidableEq

namespace HashTableSeparateChaining

/-- Constructor state: size empty buckets. -/
def initTable (V : Type) (size : Nat) : HashTableSeparateChaining V :=
  ⟨size, 0, List.replicate size [], 0⟩

/-- Current load factor, count / size, as an exact rational. -/
def load_factor {V : Type} (st : HashTableSeparateChaining V) : ℚ :=
  (st.count : ℚ) / (st.size : ℚ)

/-- The bucket index of a key: the raw hash-function value used directly as a
list index by the source.  In-range hash functions make it a valid index. -/
def bucketIdx (hf : Int → Int → Int) (k : Int) (size : Nat) : Nat :=
  (hf k (size : Int)).toNat

/-- The chain walk of insert: each visited node costs one comparison; a node
with the target key gets its value replaced in place and the walk reports the
rewritten chain, otherwise none is reported together with the full chain
length in comparisons. -/
def chainInsertGo {V : Type} (k : Int) (v : V) :
    List (Int × V) → Option (List (Int × V)) × Nat
  | [] => (none, 0)
  | (k2, v2) :: rest =>
    if k2 = k then (some ((k2, v) :: rest), 1)
    else
      let r := chainInsertGo k v rest
      (r.1.map (fun c => (k2, v2) :: c), r.2 + 1)

/-- The non-resizing part of insert: walk the home chain and either update in
place or prepend a new node and increment count. -/
def insertBucket {V : Type} (hf : Int → Int → Int)
    (st : HashTableSeparateChaining V) (k : Int) (v : V) : HashTableSeparateChaining V :=
  let idx := bucketIdx hf k st.size
  let c := st.buckets.getD idx []
  match chainInsertGo k v c with
  | (some c2, n) =>
    { st with buckets := st.buckets.set idx c2,
              comparison_count := st.comparison_count + n }
  | (none, n) =>
    { st with buckets := st.buckets.set idx ((k, v) :: c),
              count := st.count + 1,
              comparison_count := st.comparison_count + n }

/-- The doubled, empty table the resize starts from; the counter carries
over. -/
def resizedTable {V : Type} (st : HashTableSeparateChaining V) : HashTableSeparateChaining V :=
  { size := st.size * 2, count := 0, buckets := List.replicate (st.size * 2) [],
    comparison_count := st.comparison_count }

/-- Sequential insertion of a list of entries through a given insert
operation.  The resize loop walks the old buckets in order and each chain from
head to tail, which is exactly the join of the bucket list. -/
def insertListWith {V : Type}
    (ins : HashTableSeparateChaining V → Int → V → Option (HashTableSeparateChaining V)) :
    HashTableSeparateChaining V → List (Int × V) → Option (HashTableSeparateChaining V)
  | st, [] => some st
  | st, p :: es => (ins st p.1 p.2).bind (fun st1 => insertListWith ins st1 es)

/-- insert.  If count / size has reached the threshold the table is resized
first: the size doubles and every node of every chain is re-inserted through
insert itself; then the home chain of the key is updated.  Fuel is spent at
each resize re-entry; written with Nat.rec so that it reduces in the
kernel. -/
def insert {V : Type} (hf : Int → Int → Int) (t : ℚ) :
    Nat → HashTableSeparateChaining V → Int → V → Option (HashTableSeparateChaining V) :=
  Nat.rec (motive := fun _ => HashTableSeparateChaining V → Int → V →
      Option (HashTableSeparateChaining V))
    (fun _ _ _ => none)
    (fun _fuel ins st k v =>
      (if t ≤ load_factor st then
          insertListWith ins (resizedTable st) st.buckets.flatten
        else some st).bind
        (fun st1 => some (insertBucket hf st1 k v)))

theorem scInsert_zero {V : Type} (hf : Int → Int → Int) (t : ℚ)
    (st : HashTableSeparateChaining V) (k : Int) (v : V) :
    insert hf t 0 st k v = none := rfl

theorem scInsert_succ {V : Type} (hf : Int → Int → Int) (t : ℚ) (fuel : Nat)
    (st : HashTableSeparateChaining V) (k : Int) (v : V) :
    insert hf t (fuel + 1) st k v =
      (if t ≤ load_factor st then
          insertListWith (insert hf t fuel) (resizedTable st) st.buckets.flatten
        else some st).bind
        (fun st1 => some (insertBucket hf st1 k v)) := rfl

/-- The chain walk of search: one comparison per visited node, value of the
first node carrying the key. -/
def chainSearchGo {V : Type} (k : Int) : List (Int × V) → Option V × Nat
  | [] => (none, 0)
  | (k2, v2) :: rest =>
    if k2 = k then (some v2, 1)
    else
      let r := chainSearchGo k rest
      (r.1, r.2 + 1)

/-- search: walk the home chain; the comparison counter advances by the number
of visited nodes. -/
def search {V : Type} (hf : Int → Int → Int)
    (st : HashTableSeparateChaining V) (k : Int) : Option V × HashTableSeparateChaining V :=
  let idx := bucketIdx hf k st.size
  let r := chainSearchGo k (st.buckets.getD idx [])
  (r.1, { st with comparison_count := st.comparison_count + r.2 })

/-- The chain walk of delete: remove the first node carrying the key, or
report none.  The source handles the head and the trailing-pointer walk
separately; both unlink exactly the first match. -/
def chainRemove {V : Type} (k : Int) : List (Int × V) → Option (List (Int × V))
  | [] => none
  | (k2, v2) :: rest =>
    if k2 = k then some rest
    else (chainRemove k rest).map (fun c => (k2, v2) :: c)

/-- delete: unlink the first matching node of the home chain and decrement
count, or return failure leaving the state untouched.  No counter is
updated. -/
def delete {V : Type} (hf : Int → Int → Int)
    (st : HashTableSeparateChaining V) (k : Int) : Bool × HashTableSeparateChaining V :=
  match chainRemove k (st.buckets.getD (bucketIdx hf k st.size) []) with
  | some c2 =>
    (true, { st with buckets := st.buckets.set (bucketIdx hf k st.size) c2,
                     count := st.count - 1 })
  | none => (false, st)

/-- get_chain_lengths: the per-bucket chain lengths, over the current
buckets. -/
def get_chain_lengths {V : Type} (st : HashTableSeparateChaining V) : List Nat :=
  st.buckets.map List.length

end HashTableSeparateChaining

namespace HashTableSeparateChaining

/-! ### Separate-chaining invariants -/

/-- A hash function whose result is a valid non-negative index for every
positive table size; the default division hash is one. -/
def hashOk (hf : Int → Int → Int) : Prop :=
  ∀ (k : Int) (s : Nat), 0 < s → 0 ≤ hf k (s : Int) ∧ hf k (s : Int) < (s : Int)

theorem bucketIdx_lt {hf : Int → Int → Int} (hok : hashOk hf) (k : Int) (s : Nat)
    (hs : 0 < s) : bucketIdx hf k s < s := by
  rcases hok k s hs with ⟨h1, h2⟩
  unfold bucketIdx
  omega

/-- First value stored under a key in a chain: the reference semantics of the
chain walks of insert, search and delete. -/
def chainAssoc {V : Type} (k : Int) : List (Int × V) → Option V
  | [] => none
  | (k2, v2) :: rest => if k2 = k then some v2 else chainAssoc k rest

/-- The search result of a state, as a function of the state alone. -/
def scFind {V : Type} (hf : Int → Int → Int) (st : HashTableSeparateChaining V)
    (k : Int) : Option V :=
  chainAssoc k (st.buckets.getD (bucketIdx hf k st.size) [])

/-- Total number of nodes, which is also the sum of get_chain_lengths. -/
def totalCount {V : Type} (st : HashTableSeparateChaining V) : Nat :=
  (st.buckets.map List.length).sum

/-- The invariant of reachable chaining tables: positive size, consistent
length and count, every node in the bucket its key hashes to, and no duplicate
key inside a chain. -/
def SCGood {V : Type} (hf : Int → Int → Int) (st : HashTableSeparateChaining V) : Prop :=
  0 < st.size ∧ st.buckets.length = st.size ∧ st.count = totalCount st ∧
  (∀ i, ∀ p ∈ st.buckets.getD i ([] : List (Int × V)), bucketIdx hf p.1 st.size = i) ∧
  (∀ i, ((st.buckets.getD i ([] : List (Int × V))).map Prod.fst).Nodup)

theorem chainAssoc_none_iff {V : Type} (k : Int) :
    ∀ c : List (Int × V), chainAssoc k c = none ↔ k ∉ c.map Prod.fst := by
  intro c
  induction c with
  | nil => simp [chainAssoc]
  | cons p rest ih =>
    rcases p with ⟨k2, v2⟩
    by_cases hk : k2 = k
    · simp [chainAssoc, hk]
    · simp [chainAssoc, hk, ih, Ne.symm hk]

theorem chainAssoc_mem {V : Type} (k : Int) :
    ∀ (c : List (Int × V)) (v : V), chainAssoc k c = some v → (k, v) ∈ c := by
  intro c
  induction c with
  | nil => intro v h; exact absurd h (by simp [chainAssoc])
  | cons p rest ih =>
    rcases p with ⟨k2, v2⟩
    intro v h
    by_cases hk : k2 = k
    · rw [chainAssoc, if_pos hk] at h
      obtain rfl : v2 = v := Option.some.inj h
      rw [hk]
      exact List.mem_cons_self _ _
    · rw [chainAssoc, if_neg hk] at h
      exact List.mem_cons_of_mem _ (ih v h)

theorem chainAssoc_of_mem_nodup {V : Type} (k : Int) :
    ∀ (c : List (Int × V)) (v : V), (c.map Prod.fst).Nodup → (k, v) ∈ c →
    chainAssoc k c = some v := by
  intro c
  induction c with
  | nil => intro v _ h; simp at h
  | cons p rest ih =>
    rcases p with ⟨k2, v2⟩
    intro v hnd hmem
    have hnd2 : k2 ∉ rest.map Prod.fst ∧ (rest.map Prod.fst).Nodup := by simpa using hnd
    rcases List.mem_cons.1 hmem with heq | hmem2
    · obtain ⟨rfl, rfl⟩ : k2 = k ∧ v2 = v := by simpa using heq.symm
      simp [chainAssoc]
    · have hk : k2 ≠ k := by
        intro hc
        exact hnd2.1 (hc ▸ List.mem_map_of_mem Prod.fst hmem2)
      rw [chainAssoc, if_neg hk]
      exact ih v hnd2.2 hmem2

theorem chainSearchGo_fst {V : Type} (k : Int) :
    ∀ c : List (Int × V), (chainSearchGo k c).1 = chainAssoc k c := by
  intro c
  induction c with
  | nil => rfl
  | cons p rest ih =>
    rcases p with ⟨k2, v2⟩
    by_cases hk : k2 = k
    · simp [chainSearchGo, chainAssoc, hk]
    · simp [chainSearchGo, chainAssoc, hk, ih]

theorem search_fst_eq_find {V : Type} (hf : Int → Int → Int)
    (st : HashTableSeparateChaining V) (k : Int) :
    (search hf st k).1 = scFind hf st k := by
  simp [search, scFind, chainSearchGo_fst]

theorem chainInsertGo_eq_none {V : Type} (k : Int) (v : V) :
    ∀ c : List (Int × V), chainAssoc k c = none →
    ∃ n, chainInsertGo k v c = (none, n) := by
  intro c
  induction c with
  | nil => intro _; exact ⟨0, rfl⟩
  | cons p rest ih =>
    rcases p with ⟨k2, v2⟩
    intro h
    by_cases hk : k2 = k
    · rw [chainAssoc, if_pos hk] at h
      exact absurd h (by simp)
    · rw [chainAssoc, if_neg hk] at h
      rcases ih h with ⟨n, hn⟩
      exact ⟨n + 1, by simp [chainInsertGo, hk, hn]⟩

theorem chainInsertGo_eq_some {V : Type} (k : Int) (v : V) :
    ∀ (c : List (Int × V)) (w : V), chainAssoc k c = some w →
    ∃ c2 n, chainInsertGo k v c = (some c2, n) ∧
      c2.map Prod.fst = c.map Prod.fst ∧ c2.length = c.length ∧
      chainAssoc k c2 = some v ∧
      ∀ k2, k2 ≠ k → chainAssoc k2 c2 = chainAssoc k2 c := by
  intro c
  induction c with
  | nil => intro w h; exact absurd h (by simp [chainAssoc])
  | cons p rest ih =>
    rcases p with ⟨k2, v2⟩
    intro w h
    by_cases hk : k2 = k
    · refine ⟨(k2, v) :: rest, 1, by simp [chainInsertGo, hk], by simp, by simp,
        by simp [chainAssoc, hk], ?_⟩
      intro k3 hk3
      rw [chainAssoc, chainAssoc, if_neg (hk ▸ (fun hc => hk3 hc.symm) : ¬ k2 = k3),
        if_neg (hk ▸ (fun hc => hk3 hc.symm) : ¬ k2 = k3)]
    · rw [chainAssoc, if_neg hk] at h
      rcases ih w h with ⟨c2, n, hgo, hkeys, hlenx, hass, hothers⟩
      refine ⟨(k2, v2) :: c2, n + 1, by simp [chainInsertGo, hk, hgo], by simp [hkeys],
        by simp [hlenx], by rw [chainAssoc, if_neg hk]; exact hass, ?_⟩
      intro k3 hk3
      by_cases hk23 : k2 = k3
      · rw [chainAssoc, chainAssoc, if_pos hk23, if_pos hk23]
      · rw [chainAssoc, chainAssoc, if_neg hk23, if_neg hk23]
        exact hothers k3 hk3

theorem chainRemove_spec {V : Type} (k : Int) :
    ∀ (c c2 : List (Int × V)), chainRemove k c = some c2 →
    c2.length + 1 = c.length ∧ (∀ p ∈ c2, p ∈ c) ∧
    ((c.map Prod.fst).Nodup →
      (c2.map Prod.fst).Nodup ∧ chainAssoc k c2 = none ∧
      ∀ k2, k2 ≠ k → chainAssoc k2 c2 = chainAssoc k2 c) := by
  intro c
  induction c with
  | nil => intro c2 h; exact absurd h (by simp [chainRemove])
  | cons p rest ih =>
    rcases p with ⟨k2, v2⟩
    intro c2 h
    by_cases hk : k2 = k
    · rw [chainRemove, if_pos hk] at h
      have hc : rest = c2 := Option.some.inj h
      subst hc
      refine ⟨by simp, fun p hp => List.mem_cons_of_mem _ hp, ?_⟩
      intro hnd
      have hnd2 : k2 ∉ rest.map Prod.fst ∧ (rest.map Prod.fst).Nodup := by simpa using hnd
      refine ⟨hnd2.2, ?_, ?_⟩
      · rw [chainAssoc_none_iff]
        exact hk ▸ hnd2.1
      · intro k3 hk3
        rw [chainAssoc, if_neg (hk ▸ (fun hc => hk3 hc.symm) : ¬ k2 = k3)]
    · rw [chainRemove, if_neg hk] at h
      rcases Option.map_eq_some'.1 h with ⟨c3, hc3, rfl⟩
      rcases ih c3 hc3 with ⟨hlenx, hsub, hnd3⟩
      refine ⟨by simpa using hlenx, ?_, ?_⟩
      · intro p hp
        rcases List.mem_cons.1 hp with hp | hp
        · exact hp ▸ List.mem_cons_self _ _
        · exact List.mem_cons_of_mem _ (hsub p hp)
      · intro hnd
        have hnd2 : k2 ∉ rest.map Prod.fst ∧ (rest.map Prod.fst).Nodup := by simpa using hnd
        rcases hnd3 hnd2.2 with ⟨hn1, hn2, hn3⟩
        refine ⟨?_, ?_, ?_⟩
        · simp only [List.map_cons, List.nodup_cons]
          refine ⟨?_, hn1⟩
          intro hc
          rcases List.mem_map.1 hc with ⟨q, hq, hqf⟩
          exact hnd2.1 (hqf ▸ List.mem_map_of_mem Prod.fst (hsub q hq))
        · rw [chainAssoc, if_neg hk]
          exact hn2
        · intro k3 hk3
          by_cases hk23 : k2 = k3
          · rw [chainAssoc, chainAssoc, if_pos hk23, if_pos hk23]
          · rw [chainAssoc, chainAssoc, if_neg hk23, if_neg hk23]
            exact hn3 k3 hk3

theorem chainRemove_count_le_one {V : Type} (k : Int) :
    ∀ (c c2 : List (Int × V)), chainRemove k c = some c2 →
    (c.map Prod.fst).count k ≤ 1 → chainAssoc k c2 = none := by
  intro c
  induction c with
  | nil => intro c2 h; exact absurd h (by simp [chainRemove])
  | cons p rest ih =>
    rcases p with ⟨k2, v2⟩
    intro c2 h hcount
    by_cases hk : k2 = k
    · rw [chainRemove, if_pos hk] at h
      have hc : rest = c2 := Option.some.inj h
      subst hc
      rw [chainAssoc_none_iff]
      intro hmem
      have h1c : 0 < (rest.map Prod.fst).count k := List.count_pos_iff.2 hmem
      simp [List.count_cons, hk] at hcount
      omega
    · rw [chainRemove, if_neg hk] at h
      rcases Option.map_eq_some'.1 h with ⟨c3, hc3, rfl⟩
      have hrec : chainAssoc k c3 = none := by
        refine ih c3 hc3 ?_
        simp [List.count_cons, hk] at hcount ⊢
        simpa [Ne.symm hk] using hcount
      rw [chainAssoc, if_neg hk]
      exact hrec

end HashTableSeparateChaining

namespace HashTableOpenAddressing

/-! ### Open-addressing invariants -/

/-- Whether a slot is occupied. -/
def isOccB {V : Type} : Slot V → Bool
  | Slot.occupied _ _ => true
  | _ => false

/-- Number of occupied slots. -/
def occCount {V : Type} (T : List (Slot V)) : Nat :=
  T.countP isOccB

/-- Some slot holds exactly this key-value pair. -/
def entryLive {V : Type} (T : List (Slot V)) (k : Int) (v : V) : Prop :=
  ∃ i, T.getD i Slot.empty = Slot.occupied k v

/-- Some slot holds this key. -/
def keyLive {V : Type} (T : List (Slot V)) (k : Int) : Prop :=
  ∃ v, entryLive T k v

/-- No slot carries the DELETED sentinel. -/
def NoTomb {V : Type} (T : List (Slot V)) : Prop :=
  ∀ i, T.getD i Slot.empty ≠ Slot.deleted

/-- No key occupies two distinct slots. -/
def UniqKeys {V : Type} (T : List (Slot V)) : Prop :=
  ∀ i j k v w, T.getD i Slot.empty = Slot.occupied k v →
    T.getD j Slot.empty = Slot.occupied k w → i = j

/-- Every occupied slot is reachable by its own probe sequence: for the slot
holding key k there is a probe number i below size landing on it whose earlier
probes all land on slots occupied by other keys. -/
def Findable {V : Type} (hf : Int → Int → Int) (pt : ProbeType) (s : Nat)
    (T : List (Slot V)) : Prop :=
  ∀ idx k v, T.getD idx Slot.empty = Slot.occupied k v →
    ∃ i, i < s ∧ probeIdx hf pt s k i = idx ∧
      ∀ j, j < i → ∃ k2 v2,
        T.getD (probeIdx hf pt s k j) Slot.empty = Slot.occupied k2 v2 ∧ k2 ≠ k

/-- The invariant of tables reachable by inserts alone: positive size,
consistent length and count, no tombstones, unique keys, findable entries. -/
def Good {V : Type} (hf : Int → Int → Int) (pt : ProbeType)
    (st : HashTableOpenAddressing V) : Prop :=
  0 < st.size ∧ st.table.length = st.size ∧ st.count = occCount st.table ∧
    NoTomb st.table ∧ UniqKeys st.table ∧ Findable hf pt st.size st.table

theorem entryLive_lt {V : Type} {T : List (Slot V)} {i : Nat} {k : Int} {v : V}
    (h : T.getD i Slot.empty = Slot.occupied k v) : i < T.length :=
  lt_length_of_getD_ne T i Slot.empty (by rw [h]; simp)

theorem mem_liveEntries {V : Type} :
    ∀ (T : List (Slot V)) (k : Int) (v : V), (k, v) ∈ liveEntries T ↔ entryLive T k v := by
  intro T
  induction T with
  | nil =>
    intro k v
    constructor
    · intro h; simp [liveEntries] at h
    · rintro ⟨i, hi⟩
      rw [getD_oob _ _ _ (by simp)] at hi
      exact absurd hi (by simp)
  | cons s rest ih =>
    intro k v
    constructor
    · intro h
      cases s with
      | empty =>
        rcases (ih k v).1 (by simpa [liveEntries] using h) with ⟨i, hi⟩
        exact ⟨i + 1, by simpa using hi⟩
      | deleted =>
        rcases (ih k v).1 (by simpa [liveEntries] using h) with ⟨i, hi⟩
        exact ⟨i + 1, by simpa using hi⟩
      | occupied k2 v2 =>
        simp only [liveEntries, List.mem_cons] at h
        rcases h with h | h
        · exact ⟨0, by simp [Prod.ext_iff] at h; simp [h.1, h.2]⟩
        · rcases (ih k v).1 h with ⟨i, hi⟩
          exact ⟨i + 1, by simpa using hi⟩
    · rintro ⟨i, hi⟩
      cases i with
      | zero =>
        simp only [List.getD_cons_zero] at hi
        subst hi
        simp [liveEntries]
      | succ n =>
        simp only [List.getD_cons_succ] at hi
        have := (ih k v).2 ⟨n, hi⟩
        cases s <;> simp [liveEntries, this]

theorem length_liveEntries {V : Type} :
    ∀ (T : List (Slot V)), (liveEntries T).length = occCount T := by
  intro T
  induction T with
  | nil => rfl
  | cons s rest ih =>
    cases s <;> simp [liveEntries, occCount, List.countP_cons, isOccB] at * <;> omega

theorem uniq_tail {V : Type} {s : Slot V} {T : List (Slot V)}
    (h : UniqKeys (s :: T)) : UniqKeys T := by
  intro i j k v w hi hj
  have := h (i + 1) (j + 1) k v w (by simpa using hi) (by simpa using hj)
  omega

theorem liveKeys_nodup {V : Type} :
    ∀ (T : List (Slot V)), UniqKeys T → ((liveEntries T).map Prod.fst).Nodup := by
  intro T
  induction T with
  | nil => intro _; simp [liveEntries]
  | cons s rest ih =>
    intro hu
    cases s with
    | empty => exact ih (uniq_tail hu)
    | deleted => exact ih (uniq_tail hu)
    | occupied k v =>
      simp only [liveEntries, List.map_cons, List.nodup_cons]
      refine ⟨?_, ih (uniq_tail hu)⟩
      intro hmem
      rcases List.mem_map.1 hmem with ⟨p, hp, hfst⟩
      rcases (mem_liveEntries rest p.1 p.2).1 (by simpa using hp) with ⟨i, hi⟩
      have h0 : (Slot.occupied k v :: rest).getD 0 Slot.empty = Slot.occupied k v := rfl
      have hs2 : (Slot.occupied k v :: rest).getD (i + 1) Slot.empty = Slot.occupied k p.2 := by
        simpa [hfst] using hi
      exact absurd (hu 0 (i + 1) k v p.2 h0 hs2) (by omega)

theorem occCount_replicate {V : Type} (n : Nat) :
    occCount (List.replicate n (Slot.empty : Slot V)) = 0 := by
  induction n with
  | zero => rfl
  | succ m ih => simpa [occCount, List.replicate, List.countP_cons, isOccB] using ih

/-- The resized starting table is Good whenever the size is positive. -/
theorem good_resizedTable {V : Type} (hf : Int → Int → Int) (pt : ProbeType)
    (st : HashTableOpenAddressing V) (hs : 0 < st.size) :
    Good hf pt (resizedTable st) := by
  refine ⟨by simp [resizedTable]; omega, by simp [resizedTable], ?_, ?_, ?_, ?_⟩
  · simp [resizedTable, occCount_replicate]
  · intro i
    simp only [resizedTable]
    rw [getD_replicate_any]
    simp
  · intro i j k v w hi hj
    simp only [resizedTable] at hi
    rw [getD_replicate_any] at hi
    exact absurd hi (by simp)
  · intro idx k v h
    simp only [resizedTable] at h
    rw [getD_replicate_any] at h
    exact absurd h (by simp)

/-! ### The insert probing loop -/

theorem insertLoop_spec {V : Type} (hf : Int → Int → Int) (pt : ProbeType) :
    ∀ (r i : Nat) (st : HashTableOpenAddressing V) (k : Int) (v : V)
      (st2 : HashTableOpenAddressing V),
    i + r = st.size →
    (∀ j, j < i → ∃ k2 v2,
      st.table.getD (probeIdx hf pt st.size k j) Slot.empty = Slot.occupied k2 v2 ∧ k2 ≠ k) →
    insertLoop hf pt st k v i r = some st2 →
    ∃ m, i ≤ m ∧ m < st.size ∧
      (∀ j, j < m → ∃ k2 v2,
        st.table.getD (probeIdx hf pt st.size k j) Slot.empty = Slot.occupied k2 v2 ∧ k2 ≠ k) ∧
      st2.size = st.size ∧
      st2.table = st.table.set (probeIdx hf pt st.size k m) (Slot.occupied k v) ∧
      (((st.table.getD (probeIdx hf pt st.size k m) Slot.empty = Slot.empty ∨
         st.table.getD (probeIdx hf pt st.size k m) Slot.empty = Slot.deleted) ∧
        st2.count = st.count + 1) ∨
       (∃ w, st.table.getD (probeIdx hf pt st.size k m) Slot.empty = Slot.occupied k w ∧
        st2.count = st.count)) := by
  intro r
  induction r with
  | zero => intro i st k v st2 _ _ h; exact absurd h (by simp [insertLoop])
  | succ n ih =>
    intro i st k v st2 hir hpre h
    simp only [insertLoop] at h
    split at h
    · next hslot =>
      obtain rfl := Option.some.inj h
      refine ⟨i, le_refl i, by omega, hpre, by simp, by simp, Or.inl ⟨Or.inl hslot, by simp⟩⟩
    · next hslot =>
      obtain rfl := Option.some.inj h
      refine ⟨i, le_refl i, by omega, hpre, by simp, by simp, Or.inl ⟨Or.inr hslot, by simp⟩⟩
    · next k2 w hslot =>
      by_cases hk : k2 = k
      · rw [if_pos hk] at h
        subst hk
        obtain rfl := Option.some.inj h
        refine ⟨i, le_refl i, by omega, hpre, by simp, by simp, Or.inr ⟨w, hslot, by simp⟩⟩
      · rw [if_neg hk] at h
        have hpre2 : ∀ j, j < i + 1 → ∃ k3 v3,
            st.table.getD (probeIdx hf pt st.size k j) Slot.empty = Slot.occupied k3 v3 ∧
              k3 ≠ k := by
          intro j hj
          rcases Nat.lt_or_ge j i with hji | hji
          · exact hpre j hji
          · have : j = i := by omega
            subst this
            exact ⟨k2, w, hslot, hk⟩
        rcases ih (i + 1)
          { st with probe_count := st.probe_count + 1,
                    comparison_count := st.comparison_count + 1 } k v st2
          (by simp; omega) (by simpa using hpre2) h with
          ⟨m, hm1, hm2, hm3, hm4, hm5, hm6⟩
        exact ⟨m, by omega, by simpa using hm2, by simpa using hm3, by simpa using hm4,
          by simpa using hm5, by simpa using hm6⟩

theorem entryLive_replicate {V : Type} (n : Nat) (k : Int) (v : V) :
    ¬ entryLive (List.replicate n (Slot.empty : Slot V)) k v := by
  rintro ⟨i, hi⟩
  rw [getD_replicate_any] at hi
  exact absurd hi (by simp)

theorem keyLive_replicate {V : Type} (n : Nat) (k : Int) :
    ¬ keyLive (List.replicate n (Slot.empty : Slot V)) k := by
  rintro ⟨v, hv⟩
  exact entryLive_replicate n k v hv

theorem getD_set_cases {V : Type} (T : List (Slot V)) (idx : Nat) (k : Int) (v : V) :
    ∀ i k2 v2, (T.set idx (Slot.occupied k v)).getD i Slot.empty = Slot.occupied k2 v2 →
    (i = idx ∧ k2 = k ∧ v2 = v) ∨ (i ≠ idx ∧ T.getD i Slot.empty = Slot.occupied k2 v2) := by
  intro i k2 v2 h
  by_cases hi : i = idx
  · subst hi
    have hlt : i < (T.set i (Slot.occupied k v)).length :=
      entryLive_lt h
    rw [getD_set_self T i _ Slot.empty (by simpa using hlt)] at h
    have : k = k2 ∧ v = v2 := by simpa using h
    exact Or.inl ⟨rfl, this.1.symm, this.2.symm⟩
  · rw [getD_set_ne T idx i _ Slot.empty (Ne.symm hi)] at h
    exact Or.inr ⟨hi, h⟩

/-- The probing loop of insert, run with the full budget on a Good table,
preserves Good, adds or overwrites exactly the inserted entry, and increments
count exactly when the key was absent. -/
theorem insertLoop_good {V : Type} (hf : Int → Int → Int) (pt : ProbeType)
    (st st2 : HashTableOpenAddressing V) (k : Int) (v : V)
    (hg : Good hf pt st) (h : insertLoop hf pt st k v 0 st.size = some st2) :
    Good hf pt st2 ∧
    (∀ k2 v2, entryLive st2.table k2 v2 ↔
      ((k2 = k ∧ v2 = v) ∨ (k2 ≠ k ∧ entryLive st.table k2 v2))) ∧
    (keyLive st.table k → st2.count = st.count) ∧
    (¬ keyLive st.table k → st2.count = st.count + 1) := by
  obtain ⟨hs, hlen, hcnt, hnt, hu, hfind⟩ := hg
  rcases insertLoop_spec hf pt st.size 0 st k v st2 (by omega) (by intro j hj; omega) h with
    ⟨m, _, hm, hpre, hsize2, htable2, hcase⟩
  have hidxlt : probeIdx hf pt st.size k m < st.table.length := by
    rw [hlen]; exact probeIdx_lt hf pt st.size k m hs
  rcases hcase with ⟨hemp, hcnt2⟩ | ⟨w, hslot, hcnt2⟩
  · -- the entry went to an empty or tombstone slot; Good tables have no
    -- tombstones, so the slot was empty and the key was absent
    have hempty : st.table.getD (probeIdx hf pt st.size k m) Slot.empty = Slot.empty := by
      rcases hemp with h1 | h1
      · exact h1
      · exact absurd h1 (hnt _)
    have hnk : ¬ keyLive st.table k := by
      rintro ⟨v0, i0, hi0⟩
      rcases hfind i0 k v0 hi0 with ⟨i1, hi1lt, hprobe, hpref⟩
      rcases Nat.lt_trichotomy i1 m with hlt | heq | hgt
      · rcases hpre i1 hlt with ⟨k2, v2, hs2, hne⟩
        rw [hprobe, hi0] at hs2
        have h5 : k2 = k ∧ v2 = v0 := by simpa using hs2.symm
        exact hne h5.1
      · subst heq
        rw [hprobe, hi0] at hempty
        exact absurd hempty (by simp)
      · rcases hpref m hgt with ⟨k2, v2, hs2, _⟩
        rw [hempty] at hs2
        exact absurd hs2 (by simp)
    have hcases := getD_set_cases st.table (probeIdx hf pt st.size k m) k v
    have hiff : ∀ k2 v2, entryLive st2.table k2 v2 ↔
        ((k2 = k ∧ v2 = v) ∨ (k2 ≠ k ∧ entryLive st.table k2 v2)) := by
      intro k2 v2
      constructor
      · rintro ⟨i, hi⟩
        rw [htable2] at hi
        rcases hcases i k2 v2 hi with ⟨_, hk2, hv2⟩ | ⟨hne, hold⟩
        · exact Or.inl ⟨hk2, hv2⟩
        · refine Or.inr ⟨?_, ⟨i, hold⟩⟩
          intro hc
          exact hnk ⟨v2, i, hc ▸ hold⟩
      · rintro (⟨hk2, hv2⟩ | ⟨hne, i, hi⟩)
        · rw [hk2, hv2]
          refine ⟨probeIdx hf pt st.size k m, ?_⟩
          rw [htable2]
          exact getD_set_self _ _ _ _ hidxlt
        · have hine : i ≠ probeIdx hf pt st.size k m := by
            intro hc
            rw [hc, hempty] at hi
            exact absurd hi (by simp)
          refine ⟨i, ?_⟩
          rw [htable2, getD_set_ne _ _ _ _ _ (Ne.symm hine)]
          exact hi
    refine ⟨⟨by omega, ?_, ?_, ?_, ?_, ?_⟩, hiff, fun hk => absurd hk hnk, fun _ => hcnt2⟩
    · rw [htable2, hsize2, List.length_set, hlen]
    · rw [hcnt2, htable2, hcnt]
      unfold occCount
      rw [countP_set_incr isOccB st.table (probeIdx hf pt st.size k m) (Slot.occupied k v)
        Slot.empty hidxlt (by rw [hempty]; rfl) rfl]
    · intro i
      rw [htable2]
      by_cases hi : i = probeIdx hf pt st.size k m
      · rw [hi, getD_set_self _ _ _ _ hidxlt]
        simp
      · rw [getD_set_ne _ _ _ _ _ (Ne.symm hi)]
        exact hnt i
    · intro i j k2 v2 w2 hi hj
      rw [htable2] at hi hj
      rcases hcases i k2 v2 hi with ⟨hie, hk2, _⟩ | ⟨hine, hiold⟩ <;>
        rcases hcases j k2 w2 hj with ⟨hje, hk2b, _⟩ | ⟨hjne, hjold⟩
      · omega
      · exact absurd ⟨w2, j, hk2 ▸ hjold⟩ hnk
      · exact absurd ⟨v2, i, hk2b ▸ hiold⟩ hnk
      · exact hu i j k2 v2 w2 hiold hjold
    · intro idx2 k2 v2 hidx2
      rw [htable2] at hidx2
      rw [hsize2, htable2]
      rcases hcases idx2 k2 v2 hidx2 with ⟨hie, hk2, _⟩ | ⟨hine, hold⟩
      · subst hie; subst hk2
        refine ⟨m, by omega, rfl, ?_⟩
        intro j hj
        rcases hpre j hj with ⟨k3, v3, hs3, hne3⟩
        have hjne : probeIdx hf pt st.size k2 j ≠ probeIdx hf pt st.size k2 m := by
          intro hc
          rw [hc, hempty] at hs3
          exact absurd hs3 (by simp)
        refine ⟨k3, v3, ?_, hne3⟩
        rw [getD_set_ne _ _ _ _ _ (Ne.symm hjne)]
        exact hs3
      · rcases hfind idx2 k2 v2 hold with ⟨i1, hi1lt, hprobe, hpref⟩
        refine ⟨i1, by omega, hprobe, ?_⟩
        intro j hj
        rcases hpref j hj with ⟨k3, v3, hs3, hne3⟩
        have hjne : probeIdx hf pt st.size k2 j ≠ probeIdx hf pt st.size k m := by
          intro hc
          rw [hc, hempty] at hs3
          exact absurd hs3 (by simp)
        refine ⟨k3, v3, ?_, hne3⟩
        rw [getD_set_ne _ _ _ _ _ (Ne.symm hjne)]
        exact hs3
  · -- the probing found the key itself: in-place update
    have hkl : keyLive st.table k := ⟨w, probeIdx hf pt st.size k m, hslot⟩
    have hcases := getD_set_cases st.table (probeIdx hf pt st.size k m) k v
    have hiff : ∀ k2 v2, entryLive st2.table k2 v2 ↔
        ((k2 = k ∧ v2 = v) ∨ (k2 ≠ k ∧ entryLive st.table k2 v2)) := by
      intro k2 v2
      constructor
      · rintro ⟨i, hi⟩
        rw [htable2] at hi
        rcases hcases i k2 v2 hi with ⟨_, hk2, hv2⟩ | ⟨hne, hold⟩
        · exact Or.inl ⟨hk2, hv2⟩
        · refine Or.inr ⟨?_, ⟨i, hold⟩⟩
          intro hc
          exact hne (hu i (probeIdx hf pt st.size k m) k v2 w (hc ▸ hold) hslot)
      · rintro (⟨hk2, hv2⟩ | ⟨hne, i, hi⟩)
        · rw [hk2, hv2]
          refine ⟨probeIdx hf pt st.size k m, ?_⟩
          rw [htable2]
          exact getD_set_self _ _ _ _ hidxlt
        · have hine : i ≠ probeIdx hf pt st.size k m := by
            intro hc
            rw [hc, hslot] at hi
            have h6 : k = k2 ∧ w = v2 := by simpa using hi
            exact hne h6.1.symm
          refine ⟨i, ?_⟩
          rw [htable2, getD_set_ne _ _ _ _ _ (Ne.symm hine)]
          exact hi
    refine ⟨⟨by omega, ?_, ?_, ?_, ?_, ?_⟩, hiff, fun _ => hcnt2,
      fun hk => absurd hkl hk⟩
    · rw [htable2, hsize2, List.length_set, hlen]
    · rw [hcnt2, htable2, hcnt]
      unfold occCount
      rw [countP_set_same isOccB st.table (probeIdx hf pt st.size k m) (Slot.occupied k v)
        Slot.empty hidxlt (by rw [hslot]; rfl)]
    · intro i
      rw [htable2]
      by_cases hi : i = probeIdx hf pt st.size k m
      · rw [hi, getD_set_self _ _ _ _ hidxlt]
        simp
      · rw [getD_set_ne _ _ _ _ _ (Ne.symm hi)]
        exact hnt i
    · intro i j k2 v2 w2 hi hj
      rw [htable2] at hi hj
      rcases hcases i k2 v2 hi with ⟨hie, hk2, _⟩ | ⟨hine, hiold⟩ <;>
        rcases hcases j k2 w2 hj with ⟨hje, hk2b, _⟩ | ⟨hjne, hjold⟩
      · omega
      · exact absurd (hu j (probeIdx hf pt st.size k m) k w2 w (hk2 ▸ hjold) hslot) hjne
      · exact absurd (hu i (probeIdx hf pt st.size k m) k v2 w (hk2b ▸ hiold) hslot) hine
      · exact hu i j k2 v2 w2 hiold hjold
    · intro idx2 k2 v2 hidx2
      rw [htable2] at hidx2
      rw [hsize2, htable2]
      rcases hcases idx2 k2 v2 hidx2 with ⟨hie, hk2, _⟩ | ⟨hine, hold⟩
      · subst hie; subst hk2
        rcases hfind (probeIdx hf pt st.size k2 m) k2 w hslot with ⟨i1, hi1lt, hprobe, hpref⟩
        refine ⟨i1, by omega, hprobe, ?_⟩
        intro j hj
        rcases hpref j hj with ⟨k3, v3, hs3, hne3⟩
        by_cases hjidx : probeIdx hf pt st.size k2 j = probeIdx hf pt st.size k2 m
        · rw [hjidx, hslot] at hs3
          have h7 : k3 = k2 ∧ v3 = w := by simpa using hs3.symm
          exact absurd h7.1 hne3
        · refine ⟨k3, v3, ?_, hne3⟩
          rw [getD_set_ne _ _ _ _ _ (Ne.symm hjidx)]
          exact hs3
      · rcases hfind idx2 k2 v2 hold with ⟨i1, hi1lt, hprobe, hpref⟩
        refine ⟨i1, by omega, hprobe, ?_⟩
        intro j hj
        rcases hpref j hj with ⟨k3, v3, hs3, hne3⟩
        by_cases hjidx : probeIdx hf pt st.size k2 j = probeIdx hf pt st.size k m
        · rw [hjidx, hslot] at hs3
          have hk3x : k3 = k ∧ v3 = w := by simpa using hs3.symm
          refine ⟨k, v, ?_, hk3x.1 ▸ hne3⟩
          rw [hjidx]
          exact getD_set_self _ _ _ _ hidxlt
        · refine ⟨k3, v3, ?_, hne3⟩
          rw [getD_set_ne _ _ _ _ _ (Ne.symm hjidx)]
          exact hs3

/-- Main correctness of insert on Good tables, jointly with the correctness of
re-inserting entry lists (used by resize), by induction on the fuel. -/
theorem insert_good_all {V : Type} (hf : Int → Int → Int) (pt : ProbeType) (t : ℚ) :
    ∀ fuel : Nat,
    (∀ (st st2 : HashTableOpenAddressing V) (k : Int) (v : V),
      Good hf pt st → insert hf pt t fuel st k v = some st2 →
      Good hf pt st2 ∧
      (∀ k2 v2, entryLive st2.table k2 v2 ↔
        ((k2 = k ∧ v2 = v) ∨ (k2 ≠ k ∧ entryLive st.table k2 v2))) ∧
      (keyLive st.table k → st2.count = st.count) ∧
      (¬ keyLive st.table k → st2.count = st.count + 1)) ∧
    (∀ (es : List (Int × V)) (st st2 : HashTableOpenAddressing V),
      Good hf pt st →
      (∀ p ∈ es, ¬ keyLive st.table p.1) → (es.map Prod.fst).Nodup →
      insertListWith (insert hf pt t fuel) st es = some st2 →
      Good hf pt st2 ∧
      (∀ p ∈ es, entryLive st2.table p.1 p.2) ∧
      (∀ k2 v2, k2 ∉ es.map Prod.fst → (entryLive st2.table k2 v2 ↔ entryLive st.table k2 v2)) ∧
      (∀ k2 v2, entryLive st2.table k2 v2 → (k2, v2) ∈ es ∨ entryLive st.table k2 v2) ∧
      st2.count = st.count + es.length) := by
  intro fuel
  induction fuel with
  | zero =>
    constructor
    · intro st st2 k v _ h
      rw [insert_zero] at h
      exact absurd h (by simp)
    · intro es
      cases es with
      | nil =>
        intro st st2 hg _ _ h
        obtain rfl : st = st2 := Option.some.inj h
        exact ⟨hg, by simp, fun _ _ _ => Iff.rfl, fun k2 v2 h2 => Or.inr h2, by simp⟩
      | cons p rest =>
        intro st st2 _ _ _ h
        rw [insertListWith, insert_zero] at h
        exact absurd h (by simp)
  | succ fuel ih =>
    have hP : ∀ (st st2 : HashTableOpenAddressing V) (k : Int) (v : V),
        Good hf pt st → insert hf pt t (fuel + 1) st k v = some st2 →
        Good hf pt st2 ∧
        (∀ k2 v2, entryLive st2.table k2 v2 ↔
          ((k2 = k ∧ v2 = v) ∨ (k2 ≠ k ∧ entryLive st.table k2 v2))) ∧
        (keyLive st.table k → st2.count = st.count) ∧
        (¬ keyLive st.table k → st2.count = st.count + 1) := by
      intro st st2 k v hg h
      rw [insert_succ] at h
      by_cases hlf : t ≤ load_factor st
      · rw [if_pos hlf] at h
        rcases Option.bind_eq_some.1 h with ⟨st1, h1, h2⟩
        have hfresh : ∀ p ∈ liveEntries st.table, ¬ keyLive (resizedTable st).table p.1 := by
          intro p _
          simpa [resizedTable] using keyLive_replicate (V := V) (st.size * 2) p.1
        rcases ih.2 (liveEntries st.table) (resizedTable st) st1
          (good_resizedTable hf pt st hg.1) hfresh
          (liveKeys_nodup st.table hg.2.2.2.2.1) h1 with
          ⟨hg1, hmem1, hiffs1, hsub1, hcount1⟩
        have hiff1 : ∀ k2 v2, entryLive st1.table k2 v2 ↔ entryLive st.table k2 v2 := by
          intro k2 v2
          constructor
          · intro he
            rcases hsub1 k2 v2 he with hmem | hres
            · exact (mem_liveEntries st.table k2 v2).1 hmem
            · exact absurd (by simpa [resizedTable] using hres)
                (entryLive_replicate (V := V) (st.size * 2) k2 v2)
          · intro he
            exact hmem1 (k2, v2) ((mem_liveEntries st.table k2 v2).2 he)
        have hc1 : st1.count = st.count := by
          rw [hcount1, length_liveEntries]
          simp [resizedTable, ← hg.2.2.1]
        have hLG := insertLoop_good hf pt st1 st2 k v hg1 h2
        have hkiff : keyLive st1.table k ↔ keyLive st.table k :=
          ⟨fun ⟨v2, hv⟩ => ⟨v2, (hiff1 k v2).1 hv⟩, fun ⟨v2, hv⟩ => ⟨v2, (hiff1 k v2).2 hv⟩⟩
        refine ⟨hLG.1, ?_, ?_, ?_⟩
        · intro k2 v2
          exact (hLG.2.1 k2 v2).trans (or_congr Iff.rfl (and_congr Iff.rfl (hiff1 k2 v2)))
        · intro hk
          rw [hLG.2.2.1 (hkiff.2 hk), hc1]
        · intro hk
          rw [hLG.2.2.2 (fun hc => hk (hkiff.1 hc)), hc1]
      · rw [if_neg hlf, Option.some_bind] at h
        exact insertLoop_good hf pt st st2 k v hg h
    refine ⟨hP, ?_⟩
    intro es
    induction es with
    | nil =>
      intro st st2 hg _ _ h
      obtain rfl : st = st2 := Option.some.inj h
      exact ⟨hg, by simp, fun _ _ _ => Iff.rfl, fun k2 v2 h2 => Or.inr h2, by simp⟩
    | cons p rest ihr =>
      intro st st2 hg hfresh hnd h
      rw [insertListWith] at h
      rcases Option.bind_eq_some.1 h with ⟨st1, h1, h2⟩
      rcases hP st st1 p.1 p.2 hg h1 with ⟨hg1, hiff1, _, hcB⟩
      have hndc : p.1 ∉ rest.map Prod.fst ∧ (rest.map Prod.fst).Nodup := by
        simpa using hnd
      have hfresh1 : ∀ q ∈ rest, ¬ keyLive st1.table q.1 := by
        intro q hq ⟨v2, hv2⟩
        rcases (hiff1 q.1 v2).1 hv2 with ⟨hq1, _⟩ | ⟨_, hold⟩
        · exact hndc.1 (hq1 ▸ List.mem_map_of_mem Prod.fst hq)
        · exact hfresh q (List.mem_cons_of_mem p hq) ⟨v2, hold⟩
      rcases ihr st1 st2 hg1 hfresh1 hndc.2 h2 with ⟨hg2, hmem2, hiffs2, hsub2, hcount2⟩
      refine ⟨hg2, ?_, ?_, ?_, ?_⟩
      · intro q hq
        rcases List.mem_cons.1 hq with hq | hq
        · subst hq
          exact (hiffs2 q.1 q.2 hndc.1).2 ((hiff1 q.1 q.2).2 (Or.inl ⟨rfl, rfl⟩))
        · exact hmem2 q hq
      · intro k2 v2 hk2
        have hk2p : k2 ≠ p.1 ∧ k2 ∉ rest.map Prod.fst := by
          simpa using hk2
        refine (hiffs2 k2 v2 hk2p.2).trans ?_
        refine (hiff1 k2 v2).trans ?_
        constructor
        · rintro (⟨he, _⟩ | ⟨_, hold⟩)
          · exact absurd he hk2p.1
          · exact hold
        · intro hold
          exact Or.inr ⟨hk2p.1, hold⟩
      · intro k2 v2 he
        rcases hsub2 k2 v2 he with hmem | he1
        · exact Or.inl (List.mem_cons_of_mem p hmem)
        · rcases (hiff1 k2 v2).1 he1 with ⟨hk2, hv2⟩ | ⟨_, hold⟩
          · exact Or.inl (by rw [hk2, hv2]; exact List.mem_cons_self p rest)
          · exact Or.inr hold
      · have hc1 : st1.count = st.count + 1 :=
          hcB (hfresh p (List.mem_cons_self p rest))
        rw [hcount2, hc1]
        simp
        omega

/-- Insert on a Good table preserves Good, records exactly the inserted
key-value pair, preserves every other entry, and increments count exactly when
the key was absent. -/
theorem insert_good {V : Type} (hf : Int → Int → Int) (pt : ProbeType) (t : ℚ) (fuel : Nat)
    (st st2 : HashTableOpenAddressing V) (k : Int) (v : V)
    (hg : Good hf pt st) (h : insert hf pt t fuel st k v = some st2) :
    Good hf pt st2 ∧
    (∀ k2 v2, entryLive st2.table k2 v2 ↔
      ((k2 = k ∧ v2 = v) ∨ (k2 ≠ k ∧ entryLive st.table k2 v2))) ∧
    (keyLive st.table k → st2.count = st.count) ∧
    (¬ keyLive st.table k → st2.count = st.count + 1) :=
  (insert_good_all hf pt t fuel).1 st st2 k v hg h

/-- Inserting a list of fresh, pairwise-distinct keys into a Good table. -/
theorem insertListWith_good {V : Type} (hf : Int → Int → Int) (pt : ProbeType) (t : ℚ)
    (fuel : Nat) (es : List (Int × V)) (st st2 : HashTableOpenAddressing V)
    (hg : Good hf pt st)
    (hfresh : ∀ p ∈ es, ¬ keyLive st.table p.1) (hnd : (es.map Prod.fst).Nodup)
    (h : insertListWith (insert hf pt t fuel) st es = some st2) :
    Good hf pt st2 ∧
    (∀ p ∈ es, entryLive st2.table p.1 p.2) ∧
    (∀ k2 v2, k2 ∉ es.map Prod.fst → (entryLive st2.table k2 v2 ↔ entryLive st.table k2 v2)) ∧
    (∀ k2 v2, entryLive st2.table k2 v2 → (k2, v2) ∈ es ∨ entryLive st.table k2 v2) ∧
    st2.count = st.count + es.length :=
  (insert_good_all hf pt t fuel).2 es st st2 hg hfresh hnd h

/-! ### The search and delete probing loops -/

theorem searchLoop_core {V : Type} (hf : Int → Int → Int) (pt : ProbeType) :
    ∀ (r i : Nat) (st : HashTableOpenAddressing V) (k : Int),
    (searchLoop hf pt st k i r).2.size = st.size ∧
    (searchLoop hf pt st k i r).2.count = st.count ∧
    (searchLoop hf pt st k i r).2.table = st.table := by
  intro r
  induction r with
  | zero => intro i st k; exact ⟨rfl, rfl, rfl⟩
  | succ n ih =>
    intro i st k
    simp only [searchLoop]
    split
    · exact ⟨rfl, rfl, rfl⟩
    · exact ih (i + 1) _ k
    · split
      · exact ⟨rfl, rfl, rfl⟩
      · exact ih (i + 1) _ k

theorem searchLoop_finds {V : Type} (hf : Int → Int → Int) (pt : ProbeType) :
    ∀ (r i : Nat) (st : HashTableOpenAddressing V) (k : Int) (v : V) (m : Nat),
    i ≤ m → m < i + r →
    st.table.getD (probeIdx hf pt st.size k m) Slot.empty = Slot.occupied k v →
    (∀ j, i ≤ j → j < m → ∃ k2 v2,
      st.table.getD (probeIdx hf pt st.size k j) Slot.empty = Slot.occupied k2 v2 ∧ k2 ≠ k) →
    (searchLoop hf pt st k i r).1 = some v := by
  intro r
  induction r with
  | zero => intro i st k v m h1 h2; omega
  | succ n ih =>
    intro i st k v m h1 h2 hm hpre
    simp only [searchLoop]
    rcases Nat.lt_or_ge i m with hi | hi
    · rcases hpre i (le_refl i) hi with ⟨k2, v2, hslot, hne⟩
      split
      · next heq => rw [hslot] at heq; exact absurd heq (by simp)
      · next heq => rw [hslot] at heq; exact absurd heq (by simp)
      · next k3 v3 heq =>
        rw [hslot] at heq
        have hk3 : k3 = k2 := by
          have := heq
          simp at this
          exact this.1.symm
        rw [if_neg (by rw [hk3]; exact hne)]
        exact ih (i + 1) _ k v m (by omega) (by omega) hm
          (fun j hj1 hj2 => hpre j (by omega) hj2)
    · have : i = m := by omega
      subst this
      split
      · next heq => rw [hm] at heq; exact absurd heq (by simp)
      · next heq => rw [hm] at heq; exact absurd heq (by simp)
      · next k3 v3 heq =>
        rw [hm] at heq
        have : k3 = k ∧ v3 = v := by simpa using heq.symm
        rw [if_pos this.1]
        simp [this.2]

theorem searchLoop_not_found {V : Type} (hf : Int → Int → Int) (pt : ProbeType) :
    ∀ (r i : Nat) (st : HashTableOpenAddressing V) (k : Int),
    (∀ j v, st.table.getD j Slot.empty ≠ Slot.occupied k v) →
    (searchLoop hf pt st k i r).1 = none := by
  intro r
  induction r with
  | zero => intro i st k _; rfl
  | succ n ih =>
    intro i st k habs
    simp only [searchLoop]
    split
    · rfl
    · exact ih (i + 1) _ k habs
    · next k3 v3 heq =>
      have hk3 : k3 ≠ k := by
        intro hc
        subst hc
        exact habs _ v3 heq
      rw [if_neg hk3]
      exact ih (i + 1) _ k habs

/-- On a Good table, search returns the value stored for the key. -/
theorem search_finds {V : Type} (hf : Int → Int → Int) (pt : ProbeType)
    (st : HashTableOpenAddressing V) (k : Int) (v : V)
    (hg : Good hf pt st) (he : entryLive st.table k v) :
    (search hf pt st k).1 = some v := by
  rcases he with ⟨idx, hslot⟩
  rcases hg.2.2.2.2.2 idx k v hslot with ⟨i1, hi1lt, hprobe, hpref⟩
  exact searchLoop_finds hf pt st.size 0 st k v i1 (by omega) (by omega)
    (by rw [hprobe]; exact hslot) (fun j _ hj => hpref j hj)

/-- When no slot holds the key, search reports not-found. -/
theorem search_not_found {V : Type} (hf : Int → Int → Int) (pt : ProbeType)
    (st : HashTableOpenAddressing V) (k : Int)
    (hnk : ¬ keyLive st.table k) :
    (search hf pt st k).1 = none := by
  refine searchLoop_not_found hf pt st.size 0 st k ?_
  intro j v hc
  exact hnk ⟨v, j, hc⟩

/-- The freshly constructed table is Good whenever its size is positive. -/
theorem good_initTable {V : Type} (hf : Int → Int → Int) (pt : ProbeType)
    (s0 : Nat) (hs : 0 < s0) : Good hf pt (initTable V s0) := by
  refine ⟨hs, by simp [initTable], by simp [initTable, occCount_replicate], ?_, ?_, ?_⟩
  · intro i
    simp only [initTable]
    rw [getD_replicate_any]
    simp
  · intro i j k v w hi hj
    simp only [initTable] at hi
    rw [getD_replicate_any] at hi
    exact absurd hi (by simp)
  · intro idx k v h
    simp only [initTable] at h
    rw [getD_replicate_any] at h
    exact absurd h (by simp)

/-- Any successful insert sequence keeps a Good table Good. -/
theorem insertSeq_good {V : Type} (hf : Int → Int → Int) (pt : ProbeType) (t : ℚ)
    (fuel : Nat) :
    ∀ (ops : List (Int × V)) (st st2 : HashTableOpenAddressing V),
    Good hf pt st → insertListWith (insert hf pt t fuel) st ops = some st2 →
    Good hf pt st2 := by
  intro ops
  induction ops with
  | nil =>
    intro st st2 hg h
    obtain rfl : st = st2 := Option.some.inj h
    exact hg
  | cons p rest ih =>
    intro st st2 hg h
    rw [insertListWith] at h
    rcases Option.bind_eq_some.1 h with ⟨st1, h1, h2⟩
    exact ih st1 st2 (insert_good hf pt t fuel st st1 p.1 p.2 hg h1).1 h2

theorem deleteLoop_fail {V : Type} (hf : Int → Int → Int) (pt : ProbeType) :
    ∀ (r i : Nat) (st : HashTableOpenAddressing V) (k : Int),
    (deleteLoop hf pt st k i r).1 = false → (deleteLoop hf pt st k i r).2 = st := by
  intro r
  induction r with
  | zero => intro i st k _; rfl
  | succ n ih =>
    intro i st k h
    simp only [deleteLoop] at h ⊢
    split at h
    · rfl
    · exact ih (i + 1) st k h
    · next k2 w heq =>
      split at h
      · simp at h
      · next hk =>
        rw [if_neg hk]
        exact ih (i + 1) st k h

theorem deleteLoop_success {V : Type} (hf : Int → Int → Int) (pt : ProbeType) :
    ∀ (r i : Nat) (st : HashTableOpenAddressing V) (k : Int),
    (deleteLoop hf pt st k i r).1 = true →
    ∃ m w, st.table.getD (probeIdx hf pt st.size k m) Slot.empty = Slot.occupied k w ∧
      (deleteLoop hf pt st k i r).2 =
        { st with table := st.table.set (probeIdx hf pt st.size k m) Slot.deleted,
                  count := st.count - 1 } := by
  intro r
  induction r with
  | zero => intro i st k h; simp [deleteLoop] at h
  | succ n ih =>
    intro i st k h
    simp only [deleteLoop] at h ⊢
    split at h
    · simp at h
    · exact ih (i + 1) st k h
    · next k2 w heq =>
      by_cases hk : k2 = k
      · subst hk
        rw [if_pos rfl] at h ⊢
        exact ⟨i, w, heq, rfl⟩
      · rw [if_neg hk] at h ⊢
        exact ih (i + 1) st k h

/-! ### Load-factor accounting for open addressing -/

/-- The load-factor invariant: consistent bookkeeping plus the bound
count < t * size + 1, under the standing assumption 1 <= t * size (true for
any sensibly configured table, e.g. the default threshold 3/4 with at least
two slots, and preserved by doubling). -/
def LFInv {V : Type} (t : ℚ) (st : HashTableOpenAddressing V) : Prop :=
  0 < st.size ∧ st.table.length = st.size ∧ st.count = occCount st.table ∧
    1 ≤ t * (st.size : ℚ) ∧ (st.count : ℚ) < t * (st.size : ℚ) + 1

theorem insertLoop_lf {V : Type} (hf : Int → Int → Int) (pt : ProbeType)
    (st st2 : HashTableOpenAddressing V) (k : Int) (v : V)
    (hs : 0 < st.size) (hlen : st.table.length = st.size)
    (hcnt : st.count = occCount st.table)
    (h : insertLoop hf pt st k v 0 st.size = some st2) :
    st2.size = st.size ∧ st2.table.length = st.table.length ∧
    st2.count = occCount st2.table ∧ st.count ≤ st2.count ∧ st2.count ≤ st.count + 1 := by
  rcases insertLoop_spec hf pt st.size 0 st k v st2 (by omega) (by intro j hj; omega) h with
    ⟨m, _, hm, _, hsize2, htable2, hcase⟩
  have hidxlt : probeIdx hf pt st.size k m < st.table.length := by
    rw [hlen]; exact probeIdx_lt hf pt st.size k m hs
  rcases hcase with ⟨hemp, hcnt2⟩ | ⟨w, hslot, hcnt2⟩
  · have hocc : isOccB (st.table.getD (probeIdx hf pt st.size k m) Slot.empty) = false := by
      rcases hemp with h1 | h1 <;> rw [h1] <;> rfl
    refine ⟨hsize2, by rw [htable2, List.length_set], ?_, by omega, by omega⟩
    rw [hcnt2, htable2, hcnt]
    unfold occCount
    rw [countP_set_incr isOccB st.table (probeIdx hf pt st.size k m) (Slot.occupied k v)
      Slot.empty hidxlt hocc rfl]
  · refine ⟨hsize2, by rw [htable2, List.length_set], ?_, by omega, by omega⟩
    rw [hcnt2, htable2, hcnt]
    unfold occCount
    rw [countP_set_same isOccB st.table (probeIdx hf pt st.size k m) (Slot.occupied k v)
      Slot.empty hidxlt (by rw [hslot]; rfl)]

/-- The load-factor invariant is preserved by insert, jointly with the list
version used by resize, by induction on the fuel.  The table size never
shrinks and each insert adds at most one entry. -/
theorem oaLF_all {V : Type} (hf : Int → Int → Int) (pt : ProbeType) (t : ℚ) :
    ∀ fuel : Nat,
    (∀ (st st2 : HashTableOpenAddressing V) (k : Int) (v : V),
      LFInv t st → insert hf pt t fuel st k v = some st2 →
      LFInv t st2 ∧ st.size ≤ st2.size ∧ st2.count ≤ st.count + 1) ∧
    (∀ (es : List (Int × V)) (st st2 : HashTableOpenAddressing V),
      LFInv t st → insertListWith (insert hf pt t fuel) st es = some st2 →
      LFInv t st2 ∧ st.size ≤ st2.size ∧ st2.count ≤ st.count + es.length) := by
  intro fuel
  induction fuel with
  | zero =>
    constructor
    · intro st st2 k v _ h
      rw [insert_zero] at h
      exact absurd h (by simp)
    · intro es
      cases es with
      | nil =>
        intro st st2 hinv h
        obtain rfl : st = st2 := Option.some.inj h
        exact ⟨hinv, le_refl _, by omega⟩
      | cons p rest =>
        intro st st2 _ h
        rw [insertListWith, insert_zero] at h
        exact absurd h (by simp)
  | succ fuel ih =>
    have hP : ∀ (st st2 : HashTableOpenAddressing V) (k : Int) (v : V),
        LFInv t st → insert hf pt t (fuel + 1) st k v = some st2 →
        LFInv t st2 ∧ st.size ≤ st2.size ∧ st2.count ≤ st.count + 1 := by
      intro st st2 k v hinv h
      obtain ⟨hs, hlen, hcnt, hone, hbound⟩ := hinv
      have hspos : (0 : ℚ) < (st.size : ℚ) := by exact_mod_cast hs
      rw [insert_succ] at h
      by_cases hlf : t ≤ load_factor st
      · rw [if_pos hlf] at h
        rcases Option.bind_eq_some.1 h with ⟨st1, h1, h2⟩
        have hone2 : 1 ≤ t * ((st.size * 2 : Nat) : ℚ) := by
          push_cast
          nlinarith [hone]
        have hinvr : LFInv t (resizedTable st) := by
          refine ⟨by simp [resizedTable]; omega, by simp [resizedTable], ?_, ?_, ?_⟩
          · simp [resizedTable, occCount_replicate]
          · simpa [resizedTable] using hone2
          · simp only [resizedTable]
            push_cast
            nlinarith [hone]
        rcases ih.2 (liveEntries st.table) (resizedTable st) st1 hinvr h1 with
          ⟨hinv1, hsz1, hc1⟩
        have hsz1b : st.size * 2 ≤ st1.size := by simpa [resizedTable] using hsz1
        have hc1b : st1.count ≤ st.count := by
          have hle : (liveEntries st.table).length = st.count := by
            rw [length_liveEntries, ← hcnt]
          simpa [resizedTable, hle] using hc1
        have hq1 : (st1.count : ℚ) < t * (st1.size : ℚ) := by
          have hcast1 : (st1.count : ℚ) ≤ (st.count : ℚ) := by exact_mod_cast hc1b
          have hcast2 : ((st.size : ℚ) * 2) ≤ (st1.size : ℚ) := by
            have hc3 : ((st.size * 2 : Nat) : ℚ) ≤ (st1.size : ℚ) := by exact_mod_cast hsz1b
            push_cast at hc3
            linarith
          nlinarith [hone, hbound, hcast1, hcast2]
        obtain ⟨hinv1a, hinv1b, hinv1c, hinv1d, _⟩ := hinv1
        rcases insertLoop_lf hf pt st1 st2 k v hinv1a hinv1b hinv1c h2 with
          ⟨hsz2, hlen2, hcnt2, hge2, hle2⟩
        refine ⟨⟨by omega, by rw [hlen2, hinv1b, hsz2], hcnt2, by rw [hsz2]; exact hinv1d, ?_⟩,
          by omega, by omega⟩
        rw [hsz2]
        have hc4 : (st2.count : ℚ) ≤ (st1.count : ℚ) + 1 := by exact_mod_cast hle2
        linarith [hq1]
      · rw [if_neg hlf, Option.some_bind] at h
        have hq : (st.count : ℚ) < t * (st.size : ℚ) := by
          have hlt : load_factor st < t := not_le.1 hlf
          unfold load_factor at hlt
          have hdiv := (div_lt_iff hspos).1 hlt
          linarith
        rcases insertLoop_lf hf pt st st2 k v hs hlen hcnt h with
          ⟨hsz2, hlen2, hcnt2, hge2, hle2⟩
        refine ⟨⟨by omega, by rw [hlen2, hlen, hsz2], hcnt2, by rw [hsz2]; exact hone, ?_⟩,
          by omega, by omega⟩
        rw [hsz2]
        have hc4 : (st2.count : ℚ) ≤ (st.count : ℚ) + 1 := by exact_mod_cast hle2
        linarith [hq]
    refine ⟨hP, ?_⟩
    intro es
    induction es with
    | nil =>
      intro st st2 hinv h
      obtain rfl : st = st2 := Option.some.inj h
      exact ⟨hinv, le_refl _, by omega⟩
    | cons p rest ihr =>
      intro st st2 hinv h
      rw [insertListWith] at h
      rcases Option.bind_eq_some.1 h with ⟨st1, h1, h2⟩
      rcases hP st st1 p.1 p.2 hinv h1 with ⟨hinv1, hsz1, hc1⟩
      rcases ihr st1 st2 hinv1 h2 with ⟨hinv2, hsz2, hc2⟩
      exact ⟨hinv2, by omega, by simp only [List.length_cons]; omega⟩

/-- delete preserves the load-factor invariant. -/
theorem delete_lf {V : Type} (hf : Int → Int → Int) (pt : ProbeType) (t : ℚ)
    (st : HashTableOpenAddressing V) (k : Int)
    (hinv : LFInv t st) : LFInv t (delete hf pt st k).2 := by
  obtain ⟨hs, hlen, hcnt, hone, hbound⟩ := hinv
  unfold delete
  rcases hb : (deleteLoop hf pt st k 0 st.size).1 with _ | _
  · rw [deleteLoop_fail hf pt st.size 0 st k hb]
    exact ⟨hs, hlen, hcnt, hone, hbound⟩
  · rcases deleteLoop_success hf pt st.size 0 st k hb with ⟨m, w, hslot, hst2⟩
    have hidxlt : probeIdx hf pt st.size k m < st.table.length :=
      entryLive_lt hslot
    have hocc : 0 < occCount st.table := by
      unfold occCount
      refine List.countP_pos.2 ⟨st.table.getD (probeIdx hf pt st.size k m) Slot.empty,
        getD_mem _ _ _ hidxlt, ?_⟩
      rw [hslot]
      rfl
    rw [hst2]
    refine ⟨hs, by simpa using hlen, ?_, hone, ?_⟩
    · have hdec := countP_set_decr isOccB st.table (probeIdx hf pt st.size k m) Slot.deleted
        Slot.empty hidxlt (by rw [hslot]; rfl) rfl
      unfold occCount at hcnt ⊢
      dsimp only
      omega
    · dsimp only
      have h1 : (st.count - 1 : Nat) ≤ st.count := by omega
      have h2 : ((st.count - 1 : Nat) : ℚ) ≤ (st.count : ℚ) := by exact_mod_cast h1
      linarith [hbound]

/-- Transport of the load-factor invariant along equal core fields. -/
theorem lf_congr {V : Type} (t : ℚ) (st st2 : HashTableOpenAddressing V)
    (hsz : st2.size = st.size) (hc : st2.count = st.count) (ht : st2.table = st.table)
    (h : LFInv t st) : LFInv t st2 := by
  obtain ⟨h1, h2, h3, h4, h5⟩ := h
  refine ⟨by rw [hsz]; exact h1, by rw [ht, hsz]; exact h2, by rw [hc, ht]; exact h3,
    by rw [hsz]; exact h4, by rw [hc, hsz]; exact h5⟩

/-- Transport of Good along equal core fields. -/
theorem good_congr {V : Type} (hf : Int → Int → Int) (pt : ProbeType)
    (st st2 : HashTableOpenAddressing V)
    (hsz : st2.size = st.size) (hc : st2.count = st.count) (ht : st2.table = st.table)
    (h : Good hf pt st) : Good hf pt st2 := by
  obtain ⟨h1, h2, h3, h4, h5, h6⟩ := h
  refine ⟨by rw [hsz]; exact h1, by rw [ht, hsz]; exact h2, by rw [hc, ht]; exact h3,
    by rw [ht]; exact h4, by rw [ht]; exact h5, by rw [ht, hsz]; exact h6⟩

/-- The load-factor invariant holds for a fresh table of positive size whose
configuration satisfies 1 <= t * size. -/
theorem lf_initTable {V : Type} (t : ℚ) (s0 : Nat) (hs : 0 < s0)
    (hone : 1 ≤ t * (s0 : ℚ)) : LFInv t (initTable V s0) := by
  refine ⟨hs, by simp [initTable], by simp [initTable, occCount_replicate], ?_, ?_⟩
  · simpa [initTable] using hone
  · simp only [initTable]
    push_cast
    linarith

end HashTableOpenAddressing

namespace HashTableSeparateChaining

/-! ### Flatten and rehash lemmas for separate chaining -/

theorem mem_flatten_iff_getD {α : Type} :
    ∀ (B : List (List α)) (a : α), a ∈ B.flatten ↔ ∃ i, a ∈ B.getD i [] := by
  intro B
  induction B with
  | nil =>
    intro a
    constructor
    · intro h; simp at h
    · rintro ⟨i, hi⟩; cases i <;> simp at hi
  | cons c rest ih =>
    intro a
    constructor
    · intro h
      rw [List.flatten_cons] at h
      rcases List.mem_append.1 h with h | h
      · exact ⟨0, by simpa using h⟩
      · rcases (ih a).1 h with ⟨i, hi⟩
        exact ⟨i + 1, by simpa using hi⟩
    · rintro ⟨i, hi⟩
      cases i with
      | zero =>
        simp only [List.getD_cons_zero] at hi
        simp [hi]
      | succ n =>
        simp only [List.getD_cons_succ] at hi
        simp [(ih a).2 ⟨n, hi⟩]

theorem nodup_flatten_keys {V : Type} (g : Int → Nat) :
    ∀ (B : List (List (Int × V))) (base : Nat),
    (∀ i, ∀ p ∈ B.getD i ([] : List (Int × V)), g p.1 = base + i) →
    (∀ i, ((B.getD i ([] : List (Int × V))).map Prod.fst).Nodup) →
    ((B.flatten).map Prod.fst).Nodup := by
  intro B
  induction B with
  | nil => intro base _ _; simp
  | cons c rest ih =>
    intro base hhome hnd
    rw [List.flatten_cons, List.map_append, List.nodup_append]
    refine ⟨hnd 0, ih (base + 1) ?_ ?_, ?_⟩
    · intro i p hp
      have := hhome (i + 1) p (by simpa using hp)
      omega
    · intro i
      simpa using hnd (i + 1)
    · intro a ha1 ha2
      rcases List.mem_map.1 ha1 with ⟨p, hp, rfl⟩
      rcases List.mem_map.1 ha2 with ⟨q, hq, hqa⟩
      rcases (mem_flatten_iff_getD rest q).1 hq with ⟨i, hqi⟩
      have hgp : g p.1 = base := by simpa using hhome 0 p (by simpa using hp)
      have hgq : g q.1 = base + 1 + i := by
        have := hhome (i + 1) q (by simpa using hqi)
        omega
      rw [hqa, hgp] at hgq
      omega

theorem scgood_flatten_nodup {V : Type} {hf : Int → Int → Int}
    {st : HashTableSeparateChaining V} (hg : SCGood hf st) :
    ((st.buckets.flatten).map Prod.fst).Nodup := by
  refine nodup_flatten_keys (fun k => bucketIdx hf k st.size) st.buckets 0 ?_ hg.2.2.2.2
  intro i p hp
  simpa using hg.2.2.2.1 i p hp

theorem mem_flatten_find {V : Type} {hf : Int → Int → Int}
    {st : HashTableSeparateChaining V} (hg : SCGood hf st) (k : Int) (v : V) :
    (k, v) ∈ st.buckets.flatten ↔ scFind hf st k = some v := by
  constructor
  · intro h
    rcases (mem_flatten_iff_getD st.buckets (k, v)).1 h with ⟨i, hi⟩
    have hhome := hg.2.2.2.1 i (k, v) hi
    unfold scFind
    rw [hhome]
    exact chainAssoc_of_mem_nodup k _ v (hhome ▸ hg.2.2.2.2 i) hi
  · intro h
    exact (mem_flatten_iff_getD st.buckets (k, v)).2
      ⟨bucketIdx hf k st.size, chainAssoc_mem k _ v h⟩

theorem totalCount_replicate {V : Type} (n : Nat) :
    ((List.replicate n ([] : List (Int × V))).map List.length).sum = 0 := by
  induction n with
  | zero => rfl
  | succ m ih => simpa [List.replicate] using ih

theorem scgood_resizedTable {V : Type} (hf : Int → Int → Int)
    (st : HashTableSeparateChaining V) (hs : 0 < st.size) :
    SCGood hf (resizedTable st) := by
  refine ⟨by simp [resizedTable]; omega, by simp [resizedTable], ?_, ?_, ?_⟩
  · simp [resizedTable, totalCount, totalCount_replicate]
  · intro i p hp
    simp only [resizedTable] at hp
    rw [getD_replicate_any] at hp
    simp at hp
  · intro i
    simp only [resizedTable]
    rw [getD_replicate_any]
    simp

theorem scgood_initTable {V : Type} (hf : Int → Int → Int) (s0 : Nat) (hs : 0 < s0) :
    SCGood hf (initTable V s0) := by
  refine ⟨hs, by simp [initTable], ?_, ?_, ?_⟩
  · simp [initTable, totalCount, totalCount_replicate]
  · intro i p hp
    simp only [initTable] at hp
    rw [getD_replicate_any] at hp
    simp at hp
  · intro i
    simp only [initTable]
    rw [getD_replicate_any]
    simp

theorem scFind_replicate {V : Type} (hf : Int → Int → Int) (s n : Nat) (c : Nat) (k : Int) :
    chainAssoc (V := V) k ((List.replicate n ([] : List (Int × V))).getD c []) = none := by
  rw [getD_replicate_any]
  rfl

/-- The non-resizing bucket update of insert on an SCGood table: it records
exactly the inserted pair, leaves other keys alone, and increments count
exactly when the key was absent from its chain. -/
theorem insertBucket_spec {V : Type} (hf : Int → Int → Int)
    (st : HashTableSeparateChaining V) (k : Int) (v : V)
    (hok : hashOk hf) (hg : SCGood hf st) :
    SCGood hf (insertBucket hf st k v) ∧
    (insertBucket hf st k v).size = st.size ∧
    scFind hf (insertBucket hf st k v) k = some v ∧
    (∀ k2, k2 ≠ k → scFind hf (insertBucket hf st k v) k2 = scFind hf st k2) ∧
    (scFind hf st k = none → (insertBucket hf st k v).count = st.count + 1) ∧
    (scFind hf st k ≠ none → (insertBucket hf st k v).count = st.count) := by
  obtain ⟨hs, hlen, hcnt, hhome, hnds⟩ := hg
  have hidxlt : bucketIdx hf k st.size < st.buckets.length := by
    rw [hlen]; exact bucketIdx_lt hok k st.size hs
  rcases hfind : chainAssoc k (st.buckets.getD (bucketIdx hf k st.size) []) with _ | w
  · -- key absent from its chain: a new node is prepended
    rcases chainInsertGo_eq_none k v (st.buckets.getD (bucketIdx hf k st.size) []) hfind
      with ⟨n, hgo⟩
    have hres : insertBucket hf st k v =
        { st with buckets := (st.buckets.set (bucketIdx hf k st.size) ((k, v) :: st.buckets.getD (bucketIdx hf k st.size) [])), count := st.count + 1, comparison_count := st.comparison_count + n } := by
      simp only [insertBucket]
      rw [hgo]
    have hkc : k ∉ (st.buckets.getD (bucketIdx hf k st.size) []).map Prod.fst :=
      (chainAssoc_none_iff k _).1 hfind
    rw [hres]
    refine ⟨⟨hs, by simpa using hlen, ?_, ?_, ?_⟩, rfl, ?_, ?_, fun _ => rfl,
      fun hc => absurd hfind hc⟩
    · have hsum := sum_map_set List.length st.buckets (bucketIdx hf k st.size)
        ((k, v) :: st.buckets.getD (bucketIdx hf k st.size) []) [] hidxlt
      simp only [totalCount] at hcnt ⊢
      simp only [List.length_cons] at hsum
      omega
    · intro i p hp
      dsimp only at hp ⊢
      by_cases hi : i = bucketIdx hf k st.size
      · rw [hi, getD_set_self _ _ _ _ hidxlt] at hp
        rcases List.mem_cons.1 hp with hp | hp
        · rw [hp]
          exact hi.symm
        · rw [hi]
          exact hhome (bucketIdx hf k st.size) p hp
      · rw [getD_set_ne _ _ _ _ _ (Ne.symm hi)] at hp
        exact hhome i p hp
    · intro i
      dsimp only
      by_cases hi : i = bucketIdx hf k st.size
      · rw [hi, getD_set_self _ _ _ _ hidxlt]
        simp only [List.map_cons, List.nodup_cons]
        exact ⟨hkc, hnds _⟩
      · rw [getD_set_ne _ _ _ _ _ (Ne.symm hi)]
        exact hnds i
    · unfold scFind
      dsimp only
      rw [getD_set_self _ _ _ _ hidxlt]
      simp [chainAssoc]
    · intro k2 hk2
      unfold scFind
      dsimp only
      by_cases hi : bucketIdx hf k2 st.size = bucketIdx hf k st.size
      · rw [hi, getD_set_self _ _ _ _ hidxlt, chainAssoc,
          if_neg (fun hc => hk2 hc.symm : ¬ k = k2)]
      · rw [getD_set_ne _ _ _ _ _ (Ne.symm hi)]
  · -- key present in its chain: value replaced in place
    rcases chainInsertGo_eq_some k v (st.buckets.getD (bucketIdx hf k st.size) []) w hfind
      with ⟨c2, n, hgo, hkeys, hlenx, hass, hothers⟩
    have hres : insertBucket hf st k v =
        { st with buckets := (st.buckets.set (bucketIdx hf k st.size) c2), comparison_count := st.comparison_count + n } := by
      simp only [insertBucket]
      rw [hgo]
    rw [hres]
    refine ⟨⟨hs, by simpa using hlen, ?_, ?_, ?_⟩, rfl, ?_, ?_,
      fun hc => by unfold scFind at hc; rw [hfind] at hc; exact absurd hc (by simp),
      fun _ => rfl⟩
    · have hsum := sum_map_set List.length st.buckets (bucketIdx hf k st.size) c2 [] hidxlt
      simp only [totalCount] at hcnt ⊢
      omega
    · intro i p hp
      dsimp only at hp ⊢
      by_cases hi : i = bucketIdx hf k st.size
      · rw [hi, getD_set_self _ _ _ _ hidxlt] at hp
        have hp1 : p.1 ∈ (st.buckets.getD (bucketIdx hf k st.size) []).map Prod.fst := by
          rw [← hkeys]
          exact List.mem_map_of_mem Prod.fst hp
        rcases List.mem_map.1 hp1 with ⟨q, hq, hqf⟩
        rw [hi, ← hqf]
        exact hhome (bucketIdx hf k st.size) q hq
      · rw [getD_set_ne _ _ _ _ _ (Ne.symm hi)] at hp
        exact hhome i p hp
    · intro i
      dsimp only
      by_cases hi : i = bucketIdx hf k st.size
      · rw [hi, getD_set_self _ _ _ _ hidxlt, hkeys]
        exact hnds _
      · rw [getD_set_ne _ _ _ _ _ (Ne.symm hi)]
        exact hnds i
    · unfold scFind
      dsimp only
      rw [getD_set_self _ _ _ _ hidxlt]
      exact hass
    · intro k2 hk2
      unfold scFind
      dsimp only
      by_cases hi : bucketIdx hf k2 st.size = bucketIdx hf k st.size
      · rw [hi, getD_set_self _ _ _ _ hidxlt, hothers k2 hk2]
      · rw [getD_set_ne _ _ _ _ _ (Ne.symm hi)]

/-- Main correctness of the chaining insert on SCGood tables, jointly with the
correctness of re-inserting entry lists (used by resize), by induction on the
fuel. -/
theorem scInsert_good_all {V : Type} (hf : Int → Int → Int) (t : ℚ) (hok : hashOk hf) :
    ∀ fuel : Nat,
    (∀ (st st2 : HashTableSeparateChaining V) (k : Int) (v : V),
      SCGood hf st → insert hf t fuel st k v = some st2 →
      SCGood hf st2 ∧ scFind hf st2 k = some v ∧
      (∀ k2, k2 ≠ k → scFind hf st2 k2 = scFind hf st k2) ∧
      (scFind hf st k = none → st2.count = st.count + 1) ∧
      (scFind hf st k ≠ none → st2.count = st.count)) ∧
    (∀ (es : List (Int × V)) (st st2 : HashTableSeparateChaining V),
      SCGood hf st →
      (∀ p ∈ es, scFind hf st p.1 = none) → (es.map Prod.fst).Nodup →
      insertListWith (insert hf t fuel) st es = some st2 →
      SCGood hf st2 ∧ (∀ p ∈ es, scFind hf st2 p.1 = some p.2) ∧
      (∀ k2, k2 ∉ es.map Prod.fst → scFind hf st2 k2 = scFind hf st k2) ∧
      st2.count = st.count + es.length) := by
  intro fuel
  induction fuel with
  | zero =>
    constructor
    · intro st st2 k v _ h
      rw [scInsert_zero] at h
      exact absurd h (by simp)
    · intro es
      cases es with
      | nil =>
        intro st st2 hg _ _ h
        obtain rfl : st = st2 := Option.some.inj h
        exact ⟨hg, by simp, fun _ _ => rfl, by simp⟩
      | cons p rest =>
        intro st st2 _ _ _ h
        rw [insertListWith, scInsert_zero] at h
        exact absurd h (by simp)
  | succ fuel ih =>
    have hP : ∀ (st st2 : HashTableSeparateChaining V) (k : Int) (v : V),
        SCGood hf st → insert hf t (fuel + 1) st k v = some st2 →
        SCGood hf st2 ∧ scFind hf st2 k = some v ∧
        (∀ k2, k2 ≠ k → scFind hf st2 k2 = scFind hf st k2) ∧
        (scFind hf st k = none → st2.count = st.count + 1) ∧
        (scFind hf st k ≠ none → st2.count = st.count) := by
      intro st st2 k v hg h
      rw [scInsert_succ] at h
      by_cases hlf : t ≤ load_factor st
      · rw [if_pos hlf] at h
        rcases Option.bind_eq_some.1 h with ⟨st1, h1, h2⟩
        obtain rfl : insertBucket hf st1 k v = st2 := Option.some.inj h2
        have hfresh : ∀ p ∈ st.buckets.flatten, scFind hf (resizedTable st) p.1 = none := by
          intro p _
          unfold scFind
          simp only [resizedTable]
          rw [getD_replicate_any]
          rfl
        rcases ih.2 st.buckets.flatten (resizedTable st) st1
          (scgood_resizedTable hf st hg.1) hfresh (scgood_flatten_nodup hg) h1 with
          ⟨hg1, hmem1, hpres1, hcount1⟩
        have hfind1 : ∀ k2, scFind hf st1 k2 = scFind hf st k2 := by
          intro k2
          by_cases hk2 : k2 ∈ st.buckets.flatten.map Prod.fst
          · rcases List.mem_map.1 hk2 with ⟨p, hp, rfl⟩
            rw [hmem1 p hp, (mem_flatten_find hg p.1 p.2).1 hp]
          · rw [hpres1 k2 hk2]
            rcases hfindst : scFind hf st k2 with _ | w
            · unfold scFind
              simp only [resizedTable]
              rw [getD_replicate_any]
              rfl
            · exact absurd
                (List.mem_map_of_mem Prod.fst ((mem_flatten_find hg k2 w).2 hfindst)) hk2
        have hcnt1 : st1.count = st.count := by
          rw [hcount1, List.length_flatten]
          have := hg.2.2.1
          unfold totalCount at this
          simp [resizedTable]
          omega
        rcases insertBucket_spec hf st1 k v hok hg1 with
          ⟨hg2, _, hfindk, hothers, hcplus, hcsame⟩
        refine ⟨hg2, hfindk, ?_, ?_, ?_⟩
        · intro k2 hk2
          rw [hothers k2 hk2, hfind1 k2]
        · intro hnone
          rw [hcplus ((hfind1 k).trans hnone), hcnt1]
        · intro hsome
          rw [hcsame (fun hc => hsome ((hfind1 k).symm.trans hc)), hcnt1]
      · rw [if_neg hlf, Option.some_bind] at h
        obtain rfl : insertBucket hf st k v = st2 := Option.some.inj h
        rcases insertBucket_spec hf st k v hok hg with
          ⟨hg2, _, hfindk, hothers, hcplus, hcsame⟩
        exact ⟨hg2, hfindk, hothers, hcplus, hcsame⟩
    refine ⟨hP, ?_⟩
    intro es
    induction es with
    | nil =>
      intro st st2 hg _ _ h
      obtain rfl : st = st2 := Option.some.inj h
      exact ⟨hg, by simp, fun _ _ => rfl, by simp⟩
    | cons p rest ihr =>
      intro st st2 hg hfresh hnd h
      rw [insertListWith] at h
      rcases Option.bind_eq_some.1 h with ⟨st1, h1, h2⟩
      rcases hP st st1 p.1 p.2 hg h1 with ⟨hg1, hfindp, hothers1, hcplus1, _⟩
      have hndc : p.1 ∉ rest.map Prod.fst ∧ (rest.map Prod.fst).Nodup := by simpa using hnd
      have hfresh1 : ∀ q ∈ rest, scFind hf st1 q.1 = none := by
        intro q hq
        have hqp : q.1 ≠ p.1 := fun hc => hndc.1 (hc ▸ List.mem_map_of_mem Prod.fst hq)
        rw [hothers1 q.1 hqp]
        exact hfresh q (List.mem_cons_of_mem p hq)
      rcases ihr st1 st2 hg1 hfresh1 hndc.2 h2 with ⟨hg2, hmem2, hpres2, hcount2⟩
      refine ⟨hg2, ?_, ?_, ?_⟩
      · intro q hq
        rcases List.mem_cons.1 hq with hq | hq
        · rw [hq, hpres2 p.1 hndc.1]
          exact hfindp
        · exact hmem2 q hq
      · intro k2 hk2
        have hk2c : k2 ≠ p.1 ∧ k2 ∉ rest.map Prod.fst := by simpa using hk2
        rw [hpres2 k2 hk2c.2, hothers1 k2 hk2c.1]
      · have hc1 : st1.count = st.count + 1 :=
          hcplus1 (hfresh p (List.mem_cons_self p rest))
        rw [hcount2, hc1]
        simp
        omega

/-- Insert on an SCGood table preserves SCGood, stores exactly the inserted
entry, preserves every other key, and increments count exactly when the key
was absent. -/
theorem scInsert_good {V : Type} (hf : Int → Int → Int) (t : ℚ) (hok : hashOk hf)
    (fuel : Nat) (st st2 : HashTableSeparateChaining V) (k : Int) (v : V)
    (hg : SCGood hf st) (h : insert hf t fuel st k v = some st2) :
    SCGood hf st2 ∧ scFind hf st2 k = some v ∧
    (∀ k2, k2 ≠ k → scFind hf st2 k2 = scFind hf st k2) ∧
    (scFind hf st k = none → st2.count = st.count + 1) ∧
    (scFind hf st k ≠ none → st2.count = st.count) :=
  (scInsert_good_all hf t hok fuel).1 st st2 k v hg h

/-- Inserting a list of fresh, pairwise-distinct keys into an SCGood table. -/
theorem scInsertListWith_good {V : Type} (hf : Int → Int → Int) (t : ℚ) (hok : hashOk hf)
    (fuel : Nat) (es : List (Int × V)) (st st2 : HashTableSeparateChaining V)
    (hg : SCGood hf st)
    (hfresh : ∀ p ∈ es, scFind hf st p.1 = none) (hnd : (es.map Prod.fst).Nodup)
    (h : insertListWith (insert hf t fuel) st es = some st2) :
    SCGood hf st2 ∧ (∀ p ∈ es, scFind hf st2 p.1 = some p.2) ∧
    (∀ k2, k2 ∉ es.map Prod.fst → scFind hf st2 k2 = scFind hf st k2) ∧
    st2.count = st.count + es.length :=
  (scInsert_good_all hf t hok fuel).2 es st st2 hg hfresh hnd h

theorem delete_eq_of_none {V : Type} (hf : Int → Int → Int)
    (st : HashTableSeparateChaining V) (k : Int)
    (hrem : chainRemove k (st.buckets.getD (bucketIdx hf k st.size) []) = none) :
    delete hf st k = (false, st) := by
  unfold delete
  rw [hrem]

theorem delete_eq_of_some {V : Type} (hf : Int → Int → Int)
    (st : HashTableSeparateChaining V) (k : Int) (c2 : List (Int × V))
    (hrem : chainRemove k (st.buckets.getD (bucketIdx hf k st.size) []) = some c2) :
    delete hf st k = (true,
      { st with buckets := st.buckets.set (bucketIdx hf k st.size) c2,
                count := st.count - 1 }) := by
  unfold delete
  rw [hrem]

/-- A failed delete returns False and leaves the state untouched. -/
theorem delete_fail {V : Type} (hf : Int → Int → Int)
    (st : HashTableSeparateChaining V) (k : Int)
    (h : (delete hf st k).1 = false) : (delete hf st k).2 = st := by
  rcases hrem : chainRemove k (st.buckets.getD (bucketIdx hf k st.size) []) with _ | c2
  · rw [delete_eq_of_none hf st k hrem]
  · rw [delete_eq_of_some hf st k c2 hrem] at h
    simp at h

/-- A successful delete removes one node of the home chain and decrements
count by one. -/
theorem delete_success {V : Type} (hf : Int → Int → Int)
    (st : HashTableSeparateChaining V) (k : Int)
    (h : (delete hf st k).1 = true) :
    ∃ c2, chainRemove k (st.buckets.getD (bucketIdx hf k st.size) []) = some c2 ∧
      (delete hf st k).2 =
        { st with buckets := (st.buckets.set (bucketIdx hf k st.size) c2), count := st.count - 1 } := by
  rcases hrem : chainRemove k (st.buckets.getD (bucketIdx hf k st.size) []) with _ | c2
  · rw [delete_eq_of_none hf st k hrem] at h
    simp at h
  · exact ⟨c2, rfl, by rw [delete_eq_of_some hf st k c2 hrem]⟩

/-- delete preserves the chaining invariant. -/
theorem delete_scgood {V : Type} (hf : Int → Int → Int)
    (st : HashTableSeparateChaining V) (k : Int)
    (hok : hashOk hf) (hg : SCGood hf st) : SCGood hf (delete hf st k).2 := by
  obtain ⟨hs, hlen, hcnt, hhome, hnds⟩ := hg
  rcases hb : (delete hf st k).1 with _ | _
  · rw [delete_fail hf st k hb]
    exact ⟨hs, hlen, hcnt, hhome, hnds⟩
  · rcases delete_success hf st k hb with ⟨c2, hrem, hst2⟩
    have hidxlt : bucketIdx hf k st.size < st.buckets.length := by
      rw [hlen]; exact bucketIdx_lt hok k st.size hs
    rcases chainRemove_spec k _ c2 hrem with ⟨hlenx, hsub, hnd3⟩
    rw [hst2]
    refine ⟨hs, by simpa using hlen, ?_, ?_, ?_⟩
    · have hsum := sum_map_set List.length st.buckets (bucketIdx hf k st.size) c2 [] hidxlt
      simp only [totalCount] at hcnt ⊢
      omega
    · intro i p hp
      dsimp only at hp ⊢
      by_cases hi : i = bucketIdx hf k st.size
      · rw [hi, getD_set_self _ _ _ _ hidxlt] at hp
        rw [hi]
        exact hhome (bucketIdx hf k st.size) p (hsub p hp)
      · rw [getD_set_ne _ _ _ _ _ (Ne.symm hi)] at hp
        exact hhome i p hp
    · intro i
      dsimp only
      by_cases hi : i = bucketIdx hf k st.size
      · rw [hi, getD_set_self _ _ _ _ hidxlt]
        exact (hnd3 (hnds _)).1
      · rw [getD_set_ne _ _ _ _ _ (Ne.symm hi)]
        exact hnds i

/-- search only advances the comparison counter. -/
theorem search_snd_fields {V : Type} (hf : Int → Int → Int)
    (st : HashTableSeparateChaining V) (k : Int) :
    (search hf st k).2.size = st.size ∧ (search hf st k).2.count = st.count ∧
      (search hf st k).2.buckets = st.buckets :=
  ⟨rfl, rfl, rfl⟩

end HashTableSeparateChaining

/-- The states a separate-chaining table reaches from a given state by
insert calls that return normally, delete calls, search calls and counter
resets. -/
inductive SCReach (hf : Int → Int → Int) (t : ℚ) {V : Type} :
    HashTableSeparateChaining V → HashTableSeparateChaining V → Prop
  | refl (st : HashTableSeparateChaining V) : SCReach hf t st st
  | insert (st st2 st3 : HashTableSeparateChaining V) (fuel : Nat) (k : Int) (v : V) :
      SCReach hf t st st2 → HashTableSeparateChaining.insert hf t fuel st2 k v = some st3 →
      SCReach hf t st st3
  | delete (st st2 : HashTableSeparateChaining V) (k : Int) :
      SCReach hf t st st2 → SCReach hf t st (HashTableSeparateChaining.delete hf st2 k).2
  | search (st st2 : HashTableSeparateChaining V) (k : Int) :
      SCReach hf t st st2 → SCReach hf t st (HashTableSeparateChaining.search hf st2 k).2
  | reset (st st2 : HashTableSeparateChaining V) :
      SCReach hf t st st2 → SCReach hf t st { st2 with comparison_count := 0 }

/-- Every reachable chaining state satisfies the chaining invariant. -/
theorem screach_good {V : Type} (hf : Int → Int → Int) (t : ℚ) (hok : HashTableSeparateChaining.hashOk hf)
    (s0 : Nat) (hs : 0 < s0) (st : HashTableSeparateChaining V)
    (h : SCReach hf t (HashTableSeparateChaining.initTable V s0) st) :
    HashTableSeparateChaining.SCGood hf st := by
  induction h with
  | refl => exact HashTableSeparateChaining.scgood_initTable hf s0 hs
  | insert st2 st3 fuel k v _ hins ih =>
    exact (HashTableSeparateChaining.scInsert_good hf t hok fuel st2 st3 k v ih hins).1
  | delete st2 k _ ih =>
    exact HashTableSeparateChaining.delete_scgood hf st2 k hok ih
  | search st2 k _ ih =>
    exact ih
  | reset st2 _ ih =>
    exact ih

/-- The states an open-addressing table reaches from a given state by insert
calls that return normally, delete calls, search calls and counter resets. -/
inductive OAReach (hf : Int → Int → Int) (pt : ProbeType) (t : ℚ) {V : Type} :
    HashTableOpenAddressing V → HashTableOpenAddressing V → Prop
  | refl (st : HashTableOpenAddressing V) : OAReach hf pt t st st
  | insert (st st2 st3 : HashTableOpenAddressing V) (fuel : Nat) (k : Int) (v : V) :
      OAReach hf pt t st st2 →
      HashTableOpenAddressing.insert hf pt t fuel st2 k v = some st3 →
      OAReach hf pt t st st3
  | delete (st st2 : HashTableOpenAddressing V) (k : Int) :
      OAReach hf pt t st st2 →
      OAReach hf pt t st (HashTableOpenAddressing.delete hf pt st2 k).2
  | search (st st2 : HashTableOpenAddressing V) (k : Int) :
      OAReach hf pt t st st2 →
      OAReach hf pt t st (HashTableOpenAddressing.search hf pt st2 k).2
  | reset (st st2 : HashTableOpenAddressing V) :
      OAReach hf pt t st st2 →
      OAReach hf pt t st { st2 with probe_count := 0, comparison_count := 0 }

/-- The states reached when no delete is ever performed. -/
inductive OAReachND (hf : Int → Int → Int) (pt : ProbeType) (t : ℚ) {V : Type} :
    HashTableOpenAddressing V → HashTableOpenAddressing V → Prop
  | refl (st : HashTableOpenAddressing V) : OAReachND hf pt t st st
  | insert (st st2 st3 : HashTableOpenAddressing V) (fuel : Nat) (k : Int) (v : V) :
      OAReachND hf pt t st st2 →
      HashTableOpenAddressing.insert hf pt t fuel st2 k v = some st3 →
      OAReachND hf pt t st st3
  | search (st st2 : HashTableOpenAddressing V) (k : Int) :
      OAReachND hf pt t st st2 →
      OAReachND hf pt t st (HashTableOpenAddressing.search hf pt st2 k).2
  | reset (st st2 : HashTableOpenAddressing V) :
      OAReachND hf pt t st st2 →
      OAReachND hf pt t st { st2 with probe_count := 0, comparison_count := 0 }

/-- Every reachable open-addressing state satisfies the load-factor
invariant, when the initial configuration does. -/
theorem oareach_lf {V : Type} (hf : Int → Int → Int) (pt : ProbeType) (t : ℚ)
    (s0 : Nat) (hs : 0 < s0) (hone : 1 ≤ t * (s0 : ℚ))
    (st : HashTableOpenAddressing V)
    (h : OAReach hf pt t (HashTableOpenAddressing.initTable V s0) st) :
    HashTableOpenAddressing.LFInv t st := by
  induction h with
  | refl => exact HashTableOpenAddressing.lf_initTable t s0 hs hone
  | insert st2 st3 fuel k v _ hins ih =>
    exact ((HashTableOpenAddressing.oaLF_all hf pt t fuel).1 st2 st3 k v ih hins).1
  | delete st2 k _ ih =>
    exact HashTableOpenAddressing.delete_lf hf pt t st2 k ih
  | search st2 k _ ih =>
    rcases HashTableOpenAddressing.searchLoop_core hf pt st2.size 0 st2 k with ⟨h1, h2, h3⟩
    exact HashTableOpenAddressing.lf_congr t st2 _ h1 h2 h3 ih
  | reset st2 _ ih =>
    exact HashTableOpenAddressing.lf_congr t st2 _ rfl rfl rfl ih

/-- Every state reachable without deletes satisfies the Good invariant. -/
theorem oareachnd_good {V : Type} (hf : Int → Int → Int) (pt : ProbeType) (t : ℚ)
    (s0 : Nat) (hs : 0 < s0) (st : HashTableOpenAddressing V)
    (h : OAReachND hf pt t (HashTableOpenAddressing.initTable V s0) st) :
    HashTableOpenAddressing.Good hf pt st := by
  induction h with
  | refl => exact HashTableOpenAddressing.good_initTable hf pt s0 hs
  | insert st2 st3 fuel k v _ hins ih =>
    exact (HashTableOpenAddressing.insert_good hf pt t fuel st2 st3 k v ih hins).1
  | search st2 k _ ih =>
    rcases HashTableOpenAddressing.searchLoop_core hf pt st2.size 0 st2 k with ⟨h1, h2, h3⟩
    exact HashTableOpenAddressing.good_congr hf pt st2 _ h1 h2 h3 ih
  | reset st2 _ ih =>
    exact HashTableOpenAddressing.good_congr hf pt st2 _ rfl rfl rfl ih

namespace HashTableSeparateChaining

/-! ### Load-factor accounting for separate chaining -/

/-- The load-factor invariant for chaining tables. -/
def SCLFInv {V : Type} (t : ℚ) (st : HashTableSeparateChaining V) : Prop :=
  0 < st.size ∧ st.buckets.length = st.size ∧ st.count = totalCount st ∧
    1 ≤ t * (st.size : ℚ) ∧ (st.count : ℚ) < t * (st.size : ℚ) + 1

/-- Counting facts of the bucket update, free of the structural invariant. -/
theorem insertBucket_counts {V : Type} (hf : Int → Int → Int)
    (st : HashTableSeparateChaining V) (k : Int) (v : V)
    (hok : hashOk hf) (hs : 0 < st.size) (hlen : st.buckets.length = st.size) :
    (insertBucket hf st k v).size = st.size ∧
    (insertBucket hf st k v).buckets.length = st.buckets.length ∧
    st.count ≤ (insertBucket hf st k v).count ∧
    (insertBucket hf st k v).count ≤ st.count + 1 ∧
    (st.count = totalCount st →
      (insertBucket hf st k v).count = totalCount (insertBucket hf st k v)) := by
  have hidxlt : bucketIdx hf k st.size < st.buckets.length := by
    rw [hlen]; exact bucketIdx_lt hok k st.size hs
  rcases hfind : chainAssoc k (st.buckets.getD (bucketIdx hf k st.size) []) with _ | w
  · rcases chainInsertGo_eq_none k v (st.buckets.getD (bucketIdx hf k st.size) []) hfind
      with ⟨n, hgo⟩
    have hres : insertBucket hf st k v =
        { st with buckets := (st.buckets.set (bucketIdx hf k st.size) ((k, v) :: st.buckets.getD (bucketIdx hf k st.size) [])), count := st.count + 1, comparison_count := st.comparison_count + n } := by
      simp only [insertBucket]
      rw [hgo]
    rw [hres]
    refine ⟨rfl, by simp, by dsimp only; omega, by dsimp only; omega, ?_⟩
    intro hcnt
    have hsum := sum_map_set List.length st.buckets (bucketIdx hf k st.size)
      ((k, v) :: st.buckets.getD (bucketIdx hf k st.size) []) [] hidxlt
    simp only [totalCount] at hcnt ⊢
    simp only [List.length_cons] at hsum
    omega
  · rcases chainInsertGo_eq_some k v (st.buckets.getD (bucketIdx hf k st.size) []) w hfind
      with ⟨c2, n, hgo, hkeys, hlenx, hass, hothers⟩
    have hres : insertBucket hf st k v =
        { st with buckets := (st.buckets.set (bucketIdx hf k st.size) c2), comparison_count := st.comparison_count + n } := by
      simp only [insertBucket]
      rw [hgo]
    rw [hres]
    refine ⟨rfl, by simp, by dsimp only; omega, by dsimp only; omega, ?_⟩
    intro hcnt
    have hsum := sum_map_set List.length st.buckets (bucketIdx hf k st.size) c2 [] hidxlt
    simp only [totalCount] at hcnt ⊢
    omega

/-- The load-factor invariant is preserved by the chaining insert, jointly
with the list version used by resize, by induction on the fuel. -/
theorem scLF_all {V : Type} (hf : Int → Int → Int) (t : ℚ) (hok : hashOk hf) :
    ∀ fuel : Nat,
    (∀ (st st2 : HashTableSeparateChaining V) (k : Int) (v : V),
      SCLFInv t st → insert hf t fuel st k v = some st2 →
      SCLFInv t st2 ∧ st.size ≤ st2.size ∧ st2.count ≤ st.count + 1) ∧
    (∀ (es : List (Int × V)) (st st2 : HashTableSeparateChaining V),
      SCLFInv t st → insertListWith (insert hf t fuel) st es = some st2 →
      SCLFInv t st2 ∧ st.size ≤ st2.size ∧ st2.count ≤ st.count + es.length) := by
  intro fuel
  induction fuel with
  | zero =>
    constructor
    · intro st st2 k v _ h
      rw [scInsert_zero] at h
      exact absurd h (by simp)
    · intro es
      cases es with
      | nil =>
        intro st st2 hinv h
        obtain rfl : st = st2 := Option.some.inj h
        exact ⟨hinv, le_refl _, by omega⟩
      | cons p rest =>
        intro st st2 _ h
        rw [insertListWith, scInsert_zero] at h
        exact absurd h (by simp)
  | succ fuel ih =>
    have hP : ∀ (st st2 : HashTableSeparateChaining V) (k : Int) (v : V),
        SCLFInv t st → insert hf t (fuel + 1) st k v = some st2 →
        SCLFInv t st2 ∧ st.size ≤ st2.size ∧ st2.count ≤ st.count + 1 := by
      intro st st2 k v hinv h
      obtain ⟨hs, hlen, hcnt, hone, hbound⟩ := hinv
      have hspos : (0 : ℚ) < (st.size : ℚ) := by exact_mod_cast hs
      rw [scInsert_succ] at h
      by_cases hlf : t ≤ load_factor st
      · rw [if_pos hlf] at h
        rcases Option.bind_eq_some.1 h with ⟨st1, h1, h2⟩
        obtain rfl : insertBucket hf st1 k v = st2 := Option.some.inj h2
        have hone2 : 1 ≤ t * ((st.size * 2 : Nat) : ℚ) := by
          push_cast
          nlinarith [hone]
        have hinvr : SCLFInv t (resizedTable st) := by
          refine ⟨by simp [resizedTable]; omega, by simp [resizedTable], ?_, ?_, ?_⟩
          · simp [resizedTable, totalCount, totalCount_replicate]
          · simpa [resizedTable] using hone2
          · simp only [resizedTable]
            push_cast
            nlinarith [hone]
        rcases ih.2 st.buckets.flatten (resizedTable st) st1 hinvr h1 with
          ⟨hinv1, hsz1, hc1⟩
        have hsz1b : st.size * 2 ≤ st1.size := by simpa [resizedTable] using hsz1
        have hc1b : st1.count ≤ st.count := by
          have hlenf : st.buckets.flatten.length = totalCount st := by
            rw [List.length_flatten]
            rfl
          have hc2 := hc1
          rw [hlenf] at hc2
          simp only [resizedTable] at hc2
          omega
        have hq1 : (st1.count : ℚ) < t * (st1.size : ℚ) := by
          have hcast1 : (st1.count : ℚ) ≤ (st.count : ℚ) := by exact_mod_cast hc1b
          have hcast2 : ((st.size : ℚ) * 2) ≤ (st1.size : ℚ) := by
            have hc3 : ((st.size * 2 : Nat) : ℚ) ≤ (st1.size : ℚ) := by exact_mod_cast hsz1b
            push_cast at hc3
            linarith
          nlinarith [hone, hbound, hcast1, hcast2]
        obtain ⟨hinv1a, hinv1b, hinv1c, hinv1d, _⟩ := hinv1
        rcases insertBucket_counts hf st1 k v hok hinv1a hinv1b with
          ⟨hsz2, hlen2, hge2, hle2, hcnt2⟩
        refine ⟨⟨by omega, by rw [hlen2, hinv1b, hsz2], hcnt2 hinv1c,
          by rw [hsz2]; exact hinv1d, ?_⟩, by omega, by omega⟩
        rw [hsz2]
        have hc4 : ((insertBucket hf st1 k v).count : ℚ) ≤ (st1.count : ℚ) + 1 := by
          exact_mod_cast hle2
        linarith [hq1]
      · rw [if_neg hlf, Option.some_bind] at h
        obtain rfl : insertBucket hf st k v = st2 := Option.some.inj h
        have hq : (st.count : ℚ) < t * (st.size : ℚ) := by
          have hlt : load_factor st < t := not_le.1 hlf
          unfold load_factor at hlt
          have hdiv := (div_lt_iff hspos).1 hlt
          linarith
        rcases insertBucket_counts hf st k v hok hs hlen with
          ⟨hsz2, hlen2, hge2, hle2, hcnt2⟩
        refine ⟨⟨by omega, by rw [hlen2, hlen, hsz2], hcnt2 hcnt,
          by rw [hsz2]; exact hone, ?_⟩, by omega, by omega⟩
        rw [hsz2]
        have hc4 : ((insertBucket hf st k v).count : ℚ) ≤ (st.count : ℚ) + 1 := by
          exact_mod_cast hle2
        linarith [hq]
    refine ⟨hP, ?_⟩
    intro es
    induction es with
    | nil =>
      intro st st2 hinv h
      obtain rfl : st = st2 := Option.some.inj h
      exact ⟨hinv, le_refl _, by omega⟩
    | cons p rest ihr =>
      intro st st2 hinv h
      rw [insertListWith] at h
      rcases Option.bind_eq_some.1 h with ⟨st1, h1, h2⟩
      rcases hP st st1 p.1 p.2 hinv h1 with ⟨hinv1, hsz1, hc1⟩
      rcases ihr st1 st2 hinv1 h2 with ⟨hinv2, hsz2, hc2⟩
      exact ⟨hinv2, by omega, by simp only [List.length_cons]; omega⟩

/-- delete preserves the chaining load-factor invariant. -/
theorem delete_sclf {V : Type} (hf : Int → Int → Int) (t : ℚ)
    (st : HashTableSeparateChaining V) (k : Int)
    (hinv : SCLFInv t st) : SCLFInv t (delete hf st k).2 := by
  obtain ⟨hs, hlen, hcnt, hone, hbound⟩ := hinv
  rcases hrem : chainRemove k (st.buckets.getD (bucketIdx hf k st.size) []) with _ | c2
  · rw [delete_eq_of_none hf st k hrem]
    exact ⟨hs, hlen, hcnt, hone, hbound⟩
  · rw [delete_eq_of_some hf st k c2 hrem]
    have hne : st.buckets.getD (bucketIdx hf k st.size) [] ≠ [] := by
      intro hc
      rw [hc] at hrem
      exact absurd hrem (by simp [chainRemove])
    have hidxlt : bucketIdx hf k st.size < st.buckets.length :=
      lt_length_of_getD_ne st.buckets (bucketIdx hf k st.size) [] hne
    rcases chainRemove_spec k _ c2 hrem with ⟨hlenx, _, _⟩
    have hsum := sum_map_set List.length st.buckets (bucketIdx hf k st.size) c2 [] hidxlt
    refine ⟨hs, by simpa using hlen, ?_, hone, ?_⟩
    · simp only [totalCount] at hcnt ⊢
      omega
    · have h1 : (st.count - 1 : Nat) ≤ st.count := by omega
      have h2 : ((st.count - 1 : Nat) : ℚ) ≤ (st.count : ℚ) := by exact_mod_cast h1
      dsimp only
      linarith [hbound]

/-- SCLFInv holds for a fresh chaining table of positive size whose
configuration satisfies 1 <= t * size. -/
theorem sclf_initTable {V : Type} (t : ℚ) (s0 : Nat) (hs : 0 < s0)
    (hone : 1 ≤ t * (s0 : ℚ)) : SCLFInv t (initTable V s0) := by
  refine ⟨hs, by simp [initTable], by simp [initTable, totalCount, totalCount_replicate],
    ?_, ?_⟩
  · simpa [initTable] using hone
  · simp only [initTable]
    push_cast
    linarith

end HashTableSeparateChaining

/-- Every reachable chaining state satisfies the load-factor invariant, when
the initial configuration does. -/
theorem screach_lf {V : Type} (hf : Int → Int → Int) (t : ℚ)
    (hok : HashTableSeparateChaining.hashOk hf)
    (s0 : Nat) (hs : 0 < s0) (hone : 1 ≤ t * (s0 : ℚ))
    (st : HashTableSeparateChaining V)
    (h : SCReach hf t (HashTableSeparateChaining.initTable V s0) st) :
    HashTableSeparateChaining.SCLFInv t st := by
  induction h with
  | refl => exact HashTableSeparateChaining.sclf_initTable t s0 hs hone
  | insert st2 st3 fuel k v _ hins ih =>
    exact ((HashTableSeparateChaining.scLF_all hf t hok fuel).1 st2 st3 k v ih hins).1
  | delete st2 k _ ih =>
    exact HashTableSeparateChaining.delete_sclf hf t st2 k ih
  | search st2 k _ ih =>
    obtain ⟨h1, h2, h3, h4, h5⟩ := ih
    exact ⟨h1, h2, h3, h4, h5⟩
  | reset st2 _ ih =>
    obtain ⟨h1, h2, h3, h4, h5⟩ := ih
    exact ⟨h1, h2, h3, h4, h5⟩

namespace DirectAddressTable

/-- Effect of a successful insert sequence on a direct-address table: sizes
are unchanged, untouched keys keep their search result, and with distinct
keys every inserted pair is found afterwards. -/
theorem insertList_spec {V : Type} :
    ∀ (ops : List (Int × V)) (st st2 : DirectAddressTable V),
    st.table.length = st.size →
    insertList st ops = some st2 →
    st2.size = st.size ∧ st2.table.length = st.table.length ∧
    (∀ k2, k2 ∉ ops.map Prod.fst → search st2 k2 = search st k2) ∧
    ((ops.map Prod.fst).Nodup → ∀ p ∈ ops, search st2 p.1 = some p.2) := by
  intro ops
  induction ops with
  | nil =>
    intro st st2 hlen h
    obtain rfl : st = st2 := Option.some.inj h
    exact ⟨rfl, rfl, fun _ _ => rfl, fun _ p hp => absurd hp (by simp)⟩
  | cons p rest ih =>
    intro st st2 hlen h
    rw [insertList] at h
    rcases Option.bind_eq_some.1 h with ⟨st1, h1, h2⟩
    have hin : 0 ≤ p.1 ∧ p.1 < (st.size : Int) := by
      by_contra hc
      rw [insert, if_neg hc] at h1
      exact absurd h1 (by simp)
    have hst1 : st1 = { st with table := st.table.set p.1.toNat (some p.2) } := by
      rw [insert, if_pos hin] at h1
      exact (Option.some.inj h1).symm
    have hlen1 : st1.table.length = st1.size := by
      rw [hst1]
      simpa using hlen
    rcases ih st1 st2 hlen1 h2 with ⟨hsz2, hlen2, hpres2, hfound2⟩
    have hsz1 : st1.size = st.size := by rw [hst1]
    have hsearch1 : ∀ k2, k2 ≠ p.1 → search st1 k2 = search st k2 := by
      intro k2 hk2
      rw [hst1]
      unfold search
      dsimp only
      by_cases hr : 0 ≤ k2 ∧ k2 < (st.size : Int)
      · rw [if_pos hr, if_pos hr]
        have htn : p.1.toNat ≠ k2.toNat := by omega
        rw [getD_set_ne _ _ _ _ _ htn]
      · rw [if_neg hr, if_neg hr]
    refine ⟨by rw [hsz2, hsz1], by rw [hlen2, hst1]; simp, ?_, ?_⟩
    · intro k2 hk2
      have hk2c : k2 ≠ p.1 ∧ k2 ∉ rest.map Prod.fst := by simpa using hk2
      rw [hpres2 k2 hk2c.2, hsearch1 k2 hk2c.1]
    · intro hnd q hq
      have hndc : p.1 ∉ rest.map Prod.fst ∧ (rest.map Prod.fst).Nodup := by simpa using hnd
      rcases List.mem_cons.1 hq with hq | hq
      · rw [hq, hpres2 p.1 hndc.1, hst1]
        unfold search
        dsimp only
        rw [if_pos hin]
        exact getD_set_self _ _ _ _ (by rw [hlen]; omega)
      · exact hfound2 hndc.2 q hq

end DirectAddressTable

namespace HashTableOpenAddressing

/-! ### Delete and search interaction for open addressing -/

/-- A failed delete returns False with the state untouched. -/
theorem delete_fail_unchanged {V : Type} (hf : Int → Int → Int) (pt : ProbeType)
    (st : HashTableOpenAddressing V) (k : Int)
    (h : (delete hf pt st k).1 = false) : (delete hf pt st k).2 = st :=
  deleteLoop_fail hf pt st.size 0 st k h

/-- When at most one slot holds the key, a successful delete makes the
immediately following search report not-found. -/
theorem delete_success_search_none {V : Type} (hf : Int → Int → Int) (pt : ProbeType)
    (st : HashTableOpenAddressing V) (k : Int)
    (hone : ∀ i j v w, st.table.getD i Slot.empty = Slot.occupied k v →
      st.table.getD j Slot.empty = Slot.occupied k w → i = j)
    (h : (delete hf pt st k).1 = true) :
    (search hf pt (delete hf pt st k).2 k).1 = none := by
  rcases deleteLoop_success hf pt st.size 0 st k h with ⟨m, w, hslot, hst2⟩
  have hidxlt : probeIdx hf pt st.size k m < st.table.length := entryLive_lt hslot
  unfold delete
  rw [hst2]
  refine search_not_found hf pt _ k ?_
  rintro ⟨v, i, hi⟩
  dsimp only at hi
  by_cases hip : i = probeIdx hf pt st.size k m
  · rw [hip, getD_set_self _ _ _ _ hidxlt] at hi
    exact absurd hi (by simp)
  · rw [getD_set_ne _ _ _ _ _ (Ne.symm hip)] at hi
    exact hip (hone i (probeIdx hf pt st.size k m) v w hi hslot)

end HashTableOpenAddressing

namespace HashTableSeparateChaining

/-- When the key occurs at most once in its chain, a successful delete makes
the immediately following search report not-found. -/
theorem scDelete_success_search_none {V : Type} (hf : Int → Int → Int)
    (st : HashTableSeparateChaining V) (k : Int)
    (hone : ((st.buckets.getD (bucketIdx hf k st.size) []).map Prod.fst).count k ≤ 1)
    (h : (delete hf st k).1 = true) :
    (search hf (delete hf st k).2 k).1 = none := by
  rcases delete_success hf st k h with ⟨c2, hrem, hst2⟩
  have hne : st.buckets.getD (bucketIdx hf k st.size) [] ≠ [] := by
    intro hc
    rw [hc] at hrem
    exact absurd hrem (by simp [chainRemove])
  have hidxlt : bucketIdx hf k st.size < st.buckets.length :=
    lt_length_of_getD_ne st.buckets (bucketIdx hf k st.size) [] hne
  have hass : chainAssoc k c2 = none := chainRemove_count_le_one k _ c2 hrem hone
  rw [hst2, search_fst_eq_find]
  unfold scFind
  dsimp only
  rw [getD_set_self _ _ _ _ hidxlt]
  exact hass

end HashTableSeparateChaining

namespace HashTableOpenAddressing

/-! ### Counter accounting and counter independence (claim C6) -/

/-- The behavioural part of a state: size, count and backing array, everything
except the two instrumentation counters. -/
def core {V : Type} (st : HashTableOpenAddressing V) : Nat × Nat × List (Slot V) :=
  (st.size, st.count, st.table)

/-- The same state with the two counters overwritten. -/
def setCounters {V : Type} (st : HashTableOpenAddressing V) (p c : Nat) :
    HashTableOpenAddressing V :=
  { st with probe_count := p, comparison_count := c }

/-- Number of probe steps the insert loop performs before placing or updating,
computed from the size and backing array alone. -/
def insertSteps {V : Type} (hf : Int → Int → Int) (pt : ProbeType)
    (s : Nat) (T : List (Slot V)) (k : Int) : Nat → Nat → Nat
  | _, 0 => 0
  | i, r + 1 =>
    match T.getD (probeIdx hf pt s k i) Slot.empty with
    | Slot.empty => 1
    | Slot.deleted => 1
    | Slot.occupied k2 _ =>
      if k2 = k then 1 else insertSteps hf pt s T k (i + 1) r + 1

/-- Number of key comparisons the insert loop performs. -/
def insertComps {V : Type} (hf : Int → Int → Int) (pt : ProbeType)
    (s : Nat) (T : List (Slot V)) (k : Int) : Nat → Nat → Nat
  | _, 0 => 0
  | i, r + 1 =>
    match T.getD (probeIdx hf pt s k i) Slot.empty with
    | Slot.empty => 0
    | Slot.deleted => 0
    | Slot.occupied k2 _ =>
      if k2 = k then 1 else insertComps hf pt s T k (i + 1) r + 1

/-- Number of probe steps the search loop performs. -/
def searchSteps {V : Type} (hf : Int → Int → Int) (pt : ProbeType)
    (s : Nat) (T : List (Slot V)) (k : Int) : Nat → Nat → Nat
  | _, 0 => 0
  | i, r + 1 =>
    match T.getD (probeIdx hf pt s k i) Slot.empty with
    | Slot.empty => 1
    | Slot.deleted => searchSteps hf pt s T k (i + 1) r + 1
    | Slot.occupied k2 _ =>
      if k2 = k then 1 else searchSteps hf pt s T k (i + 1) r + 1

/-- Number of key comparisons the search loop performs. -/
def searchComps {V : Type} (hf : Int → Int → Int) (pt : ProbeType)
    (s : Nat) (T : List (Slot V)) (k : Int) : Nat → Nat → Nat
  | _, 0 => 0
  | i, r + 1 =>
    match T.getD (probeIdx hf pt s k i) Slot.empty with
    | Slot.empty => 0
    | Slot.deleted => searchComps hf pt s T k (i + 1) r + 1
    | Slot.occupied k2 _ =>
      if k2 = k then 1 else searchComps hf pt s T k (i + 1) r + 1

/-- The insert loop adds exactly one to the probe counter per probe step and
one to the comparison counter per key comparison. -/
theorem insertLoop_counters {V : Type} (hf : Int → Int → Int) (pt : ProbeType) :
    ∀ (r i : Nat) (st st2 : HashTableOpenAddressing V) (k : Int) (v : V),
    insertLoop hf pt st k v i r = some st2 →
    st2.probe_count = st.probe_count + insertSteps hf pt st.size st.table k i r ∧
    st2.comparison_count = st.comparison_count + insertComps hf pt st.size st.table k i r := by
  intro r
  induction r with
  | zero => intro i st st2 k v h; exact absurd h (by simp [insertLoop])
  | succ r ih =>
    intro i st st2 k v h
    rw [insertLoop] at h
    rw [insertSteps, insertComps]
    dsimp only at h
    cases hslot : st.table.getD (probeIdx hf pt st.size k i) Slot.empty with
    | empty =>
      simp only [hslot] at h
      simp only [hslot]
      obtain rfl := (Option.some.inj h).symm
      exact ⟨rfl, rfl⟩
    | deleted =>
      simp only [hslot] at h
      simp only [hslot]
      obtain rfl := (Option.some.inj h).symm
      exact ⟨rfl, rfl⟩
    | occupied k2 v2 =>
      simp only [hslot] at h
      simp only [hslot]
      by_cases hk : k2 = k
      · rw [if_pos hk] at h
        rw [if_pos hk, if_pos hk]
        obtain rfl := (Option.some.inj h).symm
        exact ⟨rfl, rfl⟩
      · rw [if_neg hk] at h
        rw [if_neg hk, if_neg hk]
        rcases ih (i + 1)
          { st with probe_count := st.probe_count + 1,
                    comparison_count := st.comparison_count + 1 } st2 k v h with ⟨h1, h2⟩
        dsimp only at h1 h2
        exact ⟨by omega, by omega⟩

/-- The search loop adds exactly one to the probe counter per probe step and
one to the comparison counter per key comparison. -/
theorem searchLoop_counters {V : Type} (hf : Int → Int → Int) (pt : ProbeType) :
    ∀ (r i : Nat) (st : HashTableOpenAddressing V) (k : Int),
    (searchLoop hf pt st k i r).2.probe_count =
      st.probe_count + searchSteps hf pt st.size st.table k i r ∧
    (searchLoop hf pt st k i r).2.comparison_count =
      st.comparison_count + searchComps hf pt st.size st.table k i r := by
  intro r
  induction r with
  | zero => intro i st k; exact ⟨rfl, rfl⟩
  | succ r ih =>
    intro i st k
    rw [searchLoop, searchSteps, searchComps]
    dsimp only
    cases hslot : st.table.getD (probeIdx hf pt st.size k i) Slot.empty with
    | empty =>
      simp [hslot]
    | deleted =>
      simp only [hslot]
      rcases ih (i + 1)
        { st with probe_count := st.probe_count + 1,
                  comparison_count := st.comparison_count + 1 } k with ⟨h1, h2⟩
      dsimp only at h1 h2
      exact ⟨by omega, by omega⟩
    | occupied k2 v2 =>
      simp only [hslot]
      by_cases hk : k2 = k
      · rw [if_pos hk, if_pos hk, if_pos hk]
        exact ⟨rfl, rfl⟩
      · rw [if_neg hk, if_neg hk, if_neg hk]
        rcases ih (i + 1)
          { st with probe_count := st.probe_count + 1,
                    comparison_count := st.comparison_count + 1 } k with ⟨h1, h2⟩
        dsimp only at h1 h2
        exact ⟨by omega, by omega⟩

/-- The delete loop leaves both counters exactly as they were. -/
theorem deleteLoop_counters {V : Type} (hf : Int → Int → Int) (pt : ProbeType) :
    ∀ (r i : Nat) (st : HashTableOpenAddressing V) (k : Int),
    (deleteLoop hf pt st k i r).2.probe_count = st.probe_count ∧
    (deleteLoop hf pt st k i r).2.comparison_count = st.comparison_count := by
  intro r
  induction r with
  | zero => intro i st k; exact ⟨rfl, rfl⟩
  | succ r ih =>
    intro i st k
    rw [deleteLoop]
    cases hslot : st.table.getD (probeIdx hf pt st.size k i) Slot.empty with
    | empty =>
      simp [hslot]
    | deleted =>
      simp only [hslot]
      exact ih (i + 1) st k
    | occupied k2 v2 =>
      simp only [hslot]
      by_cases hk : k2 = k
      · simp [hk]
      · rw [if_neg hk]
        exact ih (i + 1) st k

end HashTableOpenAddressing

namespace HashTableOpenAddressing

/-- The insert loop's result, up to counters, depends only on the size, count
and backing array of the state, never on its counters. -/
theorem insertLoop_congr {V : Type} (hf : Int → Int → Int) (pt : ProbeType) :
    ∀ (r i : Nat) (st st' : HashTableOpenAddressing V) (k : Int) (v : V),
    st.size = st'.size → st.count = st'.count → st.table = st'.table →
    Option.map core (insertLoop hf pt st k v i r) =
      Option.map core (insertLoop hf pt st' k v i r) := by
  intro r
  induction r with
  | zero => intro i st st' k v _ _ _; rfl
  | succ r ih =>
    intro i st st' k v h1 h2 h3
    obtain ⟨s, c, T, p, q⟩ := st
    obtain ⟨s', c', T', p', q'⟩ := st'
    dsimp only at h1 h2 h3
    subst h1; subst h2; subst h3
    rw [insertLoop, insertLoop]
    dsimp only
    cases hslot : T.getD (probeIdx hf pt s k i) Slot.empty with
    | empty => simp [hslot, core]
    | deleted => simp [hslot, core]
    | occupied k2 v2 =>
      simp only [hslot]
      by_cases hk : k2 = k
      · simp [hk, core]
      · rw [if_neg hk, if_neg hk]
        exact ih (i + 1) _ _ k v rfl rfl rfl

/-- Binding two computations with equal cores into a continuation that only
reads the core yields results with equal cores. -/
theorem bind_core_congr_gen {V : Type} (x y : Option (HashTableOpenAddressing V))
    (f : HashTableOpenAddressing V → Option (HashTableOpenAddressing V))
    (hxy : Option.map core x = Option.map core y)
    (hf2 : ∀ a b : HashTableOpenAddressing V,
      a.size = b.size → a.count = b.count → a.table = b.table →
      Option.map core (f a) = Option.map core (f b)) :
    Option.map core (x.bind f) = Option.map core (y.bind f) := by
  cases x with
  | none =>
    cases y with
    | none => rfl
    | some b => exact absurd hxy (by simp)
  | some a =>
    cases y with
    | none => exact absurd hxy (by simp)
    | some b =>
      have hc : core a = core b := by simpa using hxy
      have h1 : a.size = b.size := congrArg Prod.fst hc
      have h2 : a.count = b.count := congrArg (fun z => z.2.1) hc
      have h3 : a.table = b.table := congrArg (fun z => z.2.2) hc
      show Option.map core (f a) = Option.map core (f b)
      exact hf2 a b h1 h2 h3

/-- Full insert, including the resize path, computes the same result up to
counters from states that agree on size, count and backing array: the counter
values never influence which slots are read or written or what is returned. -/
theorem insert_congr_all {V : Type} (hf : Int → Int → Int) (pt : ProbeType) (t : ℚ) :
    ∀ fuel : Nat,
    (∀ (st st' : HashTableOpenAddressing V) (k : Int) (v : V),
      st.size = st'.size → st.count = st'.count → st.table = st'.table →
      Option.map core (insert hf pt t fuel st k v) =
        Option.map core (insert hf pt t fuel st' k v)) ∧
    (∀ (es : List (Int × V)) (st st' : HashTableOpenAddressing V),
      st.size = st'.size → st.count = st'.count → st.table = st'.table →
      Option.map core (insertListWith (insert hf pt t fuel) st es) =
        Option.map core (insertListWith (insert hf pt t fuel) st' es)) := by
  intro fuel
  induction fuel with
  | zero =>
    constructor
    · intro st st' k v _ _ _; rfl
    · intro es
      cases es with
      | nil =>
        intro st st' h1 h2 h3
        simp [insertListWith, core, h1, h2, h3]
      | cons p es =>
        intro st st' _ _ _
        simp [insertListWith, insert_zero]
  | succ fuel ih =>
    have hA : ∀ (st st' : HashTableOpenAddressing V) (k : Int) (v : V),
        st.size = st'.size → st.count = st'.count → st.table = st'.table →
        Option.map core (insert hf pt t (fuel + 1) st k v) =
          Option.map core (insert hf pt t (fuel + 1) st' k v) := by
      intro st st' k v h1 h2 h3
      rw [insert_succ, insert_succ]
      have hlf : load_factor st = load_factor st' := by
        rw [load_factor, load_factor, h1, h2]
      by_cases hth : t ≤ load_factor st
      · rw [if_pos hth, if_pos (hlf ▸ hth), h3]
        refine bind_core_congr_gen _ _ _ ?_ ?_
        · exact ih.2 (liveEntries st'.table) (resizedTable st) (resizedTable st')
            (by simp [resizedTable, h1]) (by simp [resizedTable]) (by simp [resizedTable, h1])
        · intro a b g1 g2 g3
          rw [g1]
          exact insertLoop_congr hf pt b.size 0 a b k v g1 g2 g3
      · rw [if_neg hth, if_neg (hlf ▸ hth)]
        refine bind_core_congr_gen _ _ _ (by simp [core, h1, h2, h3]) ?_
        intro a b g1 g2 g3
        rw [g1]
        exact insertLoop_congr hf pt b.size 0 a b k v g1 g2 g3
    refine ⟨hA, ?_⟩
    intro es
    induction es with
    | nil =>
      intro st st' h1 h2 h3
      simp [insertListWith, core, h1, h2, h3]
    | cons p es ihes =>
      intro st st' h1 h2 h3
      simp only [insertListWith]
      exact bind_core_congr_gen _ _ _ (hA st st' p.1 p.2 h1 h2 h3)
        (fun a b g1 g2 g3 => ihes a b g1 g2 g3)

/-- The search loop's answer and resulting core depend only on the size,
count and backing array of the state, never on its counters. -/
theorem searchLoop_congr {V : Type} (hf : Int → Int → Int) (pt : ProbeType) :
    ∀ (r i : Nat) (st st' : HashTableOpenAddressing V) (k : Int),
    st.size = st'.size → st.count = st'.count → st.table = st'.table →
    (searchLoop hf pt st k i r).1 = (searchLoop hf pt st' k i r).1 ∧
    core (searchLoop hf pt st k i r).2 = core (searchLoop hf pt st' k i r).2 := by
  intro r
  induction r with
  | zero =>
    intro i st st' k h1 h2 h3
    exact ⟨rfl, by simp [searchLoop, core, h1, h2, h3]⟩
  | succ r ih =>
    intro i st st' k h1 h2 h3
    obtain ⟨s, c, T, p, q⟩ := st
    obtain ⟨s', c', T', p', q'⟩ := st'
    dsimp only at h1 h2 h3
    subst h1; subst h2; subst h3
    rw [searchLoop, searchLoop]
    dsimp only
    cases hslot : T.getD (probeIdx hf pt s k i) Slot.empty with
    | empty => simp [hslot, core]
    | deleted =>
      simp only [hslot]
      exact ih (i + 1) _ _ k rfl rfl rfl
    | occupied k2 v2 =>
      simp only [hslot]
      by_cases hk : k2 = k
      · simp [hk, core]
      · rw [if_neg hk, if_neg hk]
        exact ih (i + 1) _ _ k rfl rfl rfl

/-- The delete loop's answer and resulting core depend only on the size,
count and backing array of the state, never on its counters. -/
theorem deleteLoop_congr {V : Type} (hf : Int → Int → Int) (pt : ProbeType) :
    ∀ (r i : Nat) (st st' : HashTableOpenAddressing V) (k : Int),
    st.size = st'.size → st.count = st'.count → st.table = st'.table →
    (deleteLoop hf pt st k i r).1 = (deleteLoop hf pt st' k i r).1 ∧
    core (deleteLoop hf pt st k i r).2 = core (deleteLoop hf pt st' k i r).2 := by
  intro r
  induction r with
  | zero =>
    intro i st st' k h1 h2 h3
    exact ⟨rfl, by simp [deleteLoop, core, h1, h2, h3]⟩
  | succ r ih =>
    intro i st st' k h1 h2 h3
    obtain ⟨s, c, T, p, q⟩ := st
    obtain ⟨s', c', T', p', q'⟩ := st'
    dsimp only at h1 h2 h3
    subst h1; subst h2; subst h3
    rw [deleteLoop, deleteLoop]
    cases hslot : T.getD (probeIdx hf pt s k i) Slot.empty with
    | empty => simp [hslot, core]
    | deleted =>
      simp only [hslot]
      exact ih (i + 1) _ _ k rfl rfl rfl
    | occupied k2 v2 =>
      simp only [hslot]
      by_cases hk : k2 = k
      · simp [hk, core]
      · rw [if_neg hk, if_neg hk]
        exact ih (i + 1) _ _ k rfl rfl rfl

end HashTableOpenAddressing

/-! ### Concrete traces used by the claim theorems below -/

/-- The default division hash is a valid bucket-index function. -/
theorem division_hash_ok : HashTableSeparateChaining.hashOk division_hash := by
  intro k s hs
  have hs' : (0 : Int) < (s : Int) := by exact_mod_cast hs
  exact ⟨Int.emod_nonneg k (by omega), Int.emod_lt_of_pos k hs'⟩

theorem ev_oa_ins1 :
    HashTableOpenAddressing.insert division_hash ProbeType.linear (3/4 : ℚ) 1
      (HashTableOpenAddressing.initTable Int 4) 0 10 =
    some ⟨4, 1, [Slot.occupied 0 10, Slot.empty, Slot.empty, Slot.empty], 1, 0⟩ := by
  norm_num [HashTableOpenAddressing.insert_succ, HashTableOpenAddressing.load_factor,
    HashTableOpenAddressing.initTable, HashTableOpenAddressing.insertLoop,
    HashTableOpenAddressing.probeIdx, division_hash, List.replicate]

theorem ev_oa_ins2 :
    HashTableOpenAddressing.insert division_hash ProbeType.linear (3/4 : ℚ) 1
      (⟨4, 1, [Slot.occupied 0 10, Slot.empty, Slot.empty, Slot.empty], 1, 0⟩ :
        HashTableOpenAddressing Int) 4 11 =
    some ⟨4, 2, [Slot.occupied 0 10, Slot.occupied 4 11, Slot.empty, Slot.empty], 3, 1⟩ := by
  norm_num [HashTableOpenAddressing.insert_succ, HashTableOpenAddressing.load_factor,
    HashTableOpenAddressing.insertLoop, HashTableOpenAddressing.probeIdx, division_hash]

theorem ev_oa_del1 :
    HashTableOpenAddressing.delete division_hash ProbeType.linear
      (⟨4, 2, [Slot.occupied 0 10, Slot.occupied 4 11, Slot.empty, Slot.empty], 3, 1⟩ :
        HashTableOpenAddressing Int) 0 =
    (true, ⟨4, 1, [Slot.deleted, Slot.occupied 4 11, Slot.empty, Slot.empty], 3, 1⟩) := by
  norm_num [HashTableOpenAddressing.delete, HashTableOpenAddressing.deleteLoop,
    HashTableOpenAddressing.probeIdx, division_hash]

theorem ev_oa_ins3 :
    HashTableOpenAddressing.insert division_hash ProbeType.linear (3/4 : ℚ) 1
      (⟨4, 1, [Slot.deleted, Slot.occupied 4 11, Slot.empty, Slot.empty], 3, 1⟩ :
        HashTableOpenAddressing Int) 4 12 =
    some ⟨4, 2, [Slot.occupied 4 12, Slot.occupied 4 11, Slot.empty, Slot.empty], 4, 1⟩ := by
  norm_num [HashTableOpenAddressing.insert_succ, HashTableOpenAddressing.load_factor,
    HashTableOpenAddressing.insertLoop, HashTableOpenAddressing.probeIdx, division_hash]

theorem ev_oa_del2 :
    HashTableOpenAddressing.delete division_hash ProbeType.linear
      (⟨4, 2, [Slot.occupied 4 12, Slot.occupied 4 11, Slot.empty, Slot.empty], 4, 1⟩ :
        HashTableOpenAddressing Int) 4 =
    (true, ⟨4, 1, [Slot.deleted, Slot.occupied 4 11, Slot.empty, Slot.empty], 4, 1⟩) := by
  norm_num [HashTableOpenAddressing.delete, HashTableOpenAddressing.deleteLoop,
    HashTableOpenAddressing.probeIdx, division_hash]

theorem ev_oa_search5 :
    (HashTableOpenAddressing.search division_hash ProbeType.linear
      (⟨4, 1, [Slot.deleted, Slot.occupied 4 11, Slot.empty, Slot.empty], 4, 1⟩ :
        HashTableOpenAddressing Int) 4).1 = some 11 := by
  norm_num [HashTableOpenAddressing.search, HashTableOpenAddressing.searchLoop,
    HashTableOpenAddressing.probeIdx, division_hash]

theorem ev_oa2_ins1 :
    HashTableOpenAddressing.insert division_hash ProbeType.linear (3/4 : ℚ) 1
      (HashTableOpenAddressing.initTable Int 2) 0 0 =
    some ⟨2, 1, [Slot.occupied 0 0, Slot.empty], 1, 0⟩ := by
  norm_num [HashTableOpenAddressing.insert_succ, HashTableOpenAddressing.load_factor,
    HashTableOpenAddressing.initTable, HashTableOpenAddressing.insertLoop,
    HashTableOpenAddressing.probeIdx, division_hash, List.replicate]

theorem ev_oa2_ins2 :
    HashTableOpenAddressing.insert division_hash ProbeType.linear (3/4 : ℚ) 1
      (⟨2, 1, [Slot.occupied 0 0, Slot.empty], 1, 0⟩ : HashTableOpenAddressing Int) 1 1 =
    some ⟨2, 2, [Slot.occupied 0 0, Slot.occupied 1 1], 2, 0⟩ := by
  norm_num [HashTableOpenAddressing.insert_succ, HashTableOpenAddressing.load_factor,
    HashTableOpenAddressing.insertLoop, HashTableOpenAddressing.probeIdx, division_hash]

theorem reach_oaA2 :
    OAReach division_hash ProbeType.linear (3/4 : ℚ)
      (HashTableOpenAddressing.initTable Int 4)
      ⟨4, 2, [Slot.occupied 0 10, Slot.occupied 4 11, Slot.empty, Slot.empty], 3, 1⟩ :=
  OAReach.insert _ _ _ 1 4 11
    (OAReach.insert _ _ _ 1 0 10 (OAReach.refl _) ev_oa_ins1) ev_oa_ins2

theorem reach_oaA3 :
    OAReach division_hash ProbeType.linear (3/4 : ℚ)
      (HashTableOpenAddressing.initTable Int 4)
      ⟨4, 1, [Slot.deleted, Slot.occupied 4 11, Slot.empty, Slot.empty], 3, 1⟩ := by
  have h := OAReach.delete _ _ 0 reach_oaA2
  rwa [ev_oa_del1] at h

theorem reach_oaA4 :
    OAReach division_hash ProbeType.linear (3/4 : ℚ)
      (HashTableOpenAddressing.initTable Int 4)
      ⟨4, 2, [Slot.occupied 4 12, Slot.occupied 4 11, Slot.empty, Slot.empty], 4, 1⟩ :=
  OAReach.insert _ _ _ 1 4 12 reach_oaA3 ev_oa_ins3

theorem reach_oaB1 :
    OAReach division_hash ProbeType.linear (3/4 : ℚ)
      (HashTableOpenAddressing.initTable Int 2)
      ⟨2, 1, [Slot.occupied 0 0, Slot.empty], 1, 0⟩ :=
  OAReach.insert _ _ _ 1 0 0 (OAReach.refl _) ev_oa2_ins1

theorem ev_sc_ins1 :
    HashTableSeparateChaining.insert division_hash (1 : ℚ) 1
      (HashTableSeparateChaining.initTable Int 4) 0 5 =
    some ⟨4, 1, [[(0, 5)], [], [], []], 0⟩ := by
  norm_num [HashTableSeparateChaining.scInsert_succ, HashTableSeparateChaining.load_factor,
    HashTableSeparateChaining.initTable, HashTableSeparateChaining.insertBucket,
    HashTableSeparateChaining.bucketIdx, HashTableSeparateChaining.chainInsertGo,
    division_hash, List.replicate]

theorem ev_sc_ins2 :
    HashTableSeparateChaining.insert division_hash (1 : ℚ) 1
      (⟨4, 1, [[(0, 5)], [], [], []], 0⟩ : HashTableSeparateChaining Int) 1 6 =
    some ⟨4, 2, [[(0, 5)], [(1, 6)], [], []], 0⟩ := by
  norm_num [HashTableSeparateChaining.scInsert_succ, HashTableSeparateChaining.load_factor,
    HashTableSeparateChaining.insertBucket, HashTableSeparateChaining.bucketIdx,
    HashTableSeparateChaining.chainInsertGo, division_hash]

theorem ev_sc_upd :
    HashTableSeparateChaining.insert division_hash (1 : ℚ) 1
      (⟨4, 1, [[(0, 5)], [], [], []], 0⟩ : HashTableSeparateChaining Int) 0 7 =
    some ⟨4, 1, [[(0, 7)], [], [], []], 1⟩ := by
  norm_num [HashTableSeparateChaining.scInsert_succ, HashTableSeparateChaining.load_factor,
    HashTableSeparateChaining.insertBucket, HashTableSeparateChaining.bucketIdx,
    HashTableSeparateChaining.chainInsertGo, division_hash]

theorem reach_scS1 :
    SCReach division_hash (1 : ℚ) (HashTableSeparateChaining.initTable Int 4)
      ⟨4, 1, [[(0, 5)], [], [], []], 0⟩ :=
  SCReach.insert _ _ _ 1 0 5 (SCReach.refl _) ev_sc_ins1

theorem reach_scS2 :
    SCReach division_hash (1 : ℚ) (HashTableSeparateChaining.initTable Int 4)
      ⟨4, 2, [[(0, 5)], [(1, 6)], [], []], 0⟩ :=
  SCReach.insert _ _ _ 1 1 6 reach_scS1 ev_sc_ins2

/-! ### Claim C1: load factor after insert -/

/-- C1 (corrected): the resize check happens lazily at the start of the NEXT
insert, so the load factor right after an insert can reach or exceed the
threshold (see the counterexample).  What every reachable state of both
tables does satisfy, whenever the initial configuration has 1 <= t * size, is
the weaker bound count < t * size + 1: at most one insert beyond the
threshold boundary. -/
theorem C1_load_factor_bound (hf : Int → Int → Int) (t : ℚ) (s0 : Nat)
    (hs : 0 < s0) (hone : 1 ≤ t * (s0 : ℚ)) :
    (∀ {V : Type} (pt : ProbeType) (st : HashTableOpenAddressing V),
      OAReach hf pt t (HashTableOpenAddressing.initTable V s0) st →
      (st.count : ℚ) < t * (st.size : ℚ) + 1) ∧
    (∀ {V : Type} (st : HashTableSeparateChaining V),
      HashTableSeparateChaining.hashOk hf →
      SCReach hf t (HashTableSeparateChaining.initTable V s0) st →
      (st.count : ℚ) < t * (st.size : ℚ) + 1) := by
  constructor
  · intro V pt st h
    exact (oareach_lf hf pt t s0 hs hone st h).2.2.2.2
  · intro V st hok h
    exact (screach_lf hf t hok s0 hs hone st h).2.2.2.2

/-- C1 counterexample: with threshold 3/4 and two slots, the state holding
key 0 is reachable, inserting key 1 returns normally, and the post-insert
load factor is 1, which is not below the threshold. -/
theorem C1_counterexample :
    OAReach division_hash ProbeType.linear (3/4 : ℚ)
      (HashTableOpenAddressing.initTable Int 2)
      ⟨2, 1, [Slot.occupied 0 0, Slot.empty], 1, 0⟩ ∧
    HashTableOpenAddressing.insert division_hash ProbeType.linear (3/4 : ℚ) 1
      (⟨2, 1, [Slot.occupied 0 0, Slot.empty], 1, 0⟩ : HashTableOpenAddressing Int) 1 1 =
      some ⟨2, 2, [Slot.occupied 0 0, Slot.occupied 1 1], 2, 0⟩ ∧
    ¬ (HashTableOpenAddressing.load_factor
        (⟨2, 2, [Slot.occupied 0 0, Slot.occupied 1 1], 2, 0⟩ :
          HashTableOpenAddressing Int) < (3/4 : ℚ)) :=
  ⟨reach_oaB1, ev_oa2_ins2, by norm_num [HashTableOpenAddressing.load_factor]⟩

/-- C1 witness: the amended bound at the concrete full table of the
counterexample, 2 < 3/4 * 2 + 1. -/
theorem C1_witness :
    (((⟨2, 2, [Slot.occupied 0 0, Slot.occupied 1 1], 2, 0⟩ :
        HashTableOpenAddressing Int).count : ℚ)) <
      (3/4 : ℚ) * (((⟨2, 2, [Slot.occupied 0 0, Slot.occupied 1 1], 2, 0⟩ :
        HashTableOpenAddressing Int).size : ℚ)) + 1 :=
  (C1_load_factor_bound division_hash (3/4 : ℚ) 2 (by norm_num) (by norm_num)).1
    ProbeType.linear _ (OAReach.insert _ _ _ 1 1 1 reach_oaB1 ev_oa2_ins2)

/-! ### Claim C2: round trip of distinct-key insert sequences -/

/-- C2 (confirmed): starting from a fresh table of any of the three variants,
after a successful insert sequence with pairwise-distinct keys every inserted
pair is found by search with its inserted value. -/
theorem C2_round_trip {V : Type} (s0 : Nat) (hs : 0 < s0) :
    (∀ (ops : List (Int × V)) (st2 : DirectAddressTable V),
      (ops.map Prod.fst).Nodup →
      DirectAddressTable.insertList (DirectAddressTable.initTable V s0) ops = some st2 →
      ∀ p ∈ ops, DirectAddressTable.search st2 p.1 = some p.2) ∧
    (∀ (hf : Int → Int → Int) (pt : ProbeType) (t : ℚ) (fuel : Nat)
      (ops : List (Int × V)) (st2 : HashTableOpenAddressing V),
      (ops.map Prod.fst).Nodup →
      HashTableOpenAddressing.insertListWith (HashTableOpenAddressing.insert hf pt t fuel)
        (HashTableOpenAddressing.initTable V s0) ops = some st2 →
      ∀ p ∈ ops, (HashTableOpenAddressing.search hf pt st2 p.1).1 = some p.2) ∧
    (∀ (hf : Int → Int → Int) (t : ℚ) (fuel : Nat)
      (ops : List (Int × V)) (st2 : HashTableSeparateChaining V),
      HashTableSeparateChaining.hashOk hf →
      (ops.map Prod.fst).Nodup →
      HashTableSeparateChaining.insertListWith (HashTableSeparateChaining.insert hf t fuel)
        (HashTableSeparateChaining.initTable V s0) ops = some st2 →
      ∀ p ∈ ops, (HashTableSeparateChaining.search hf st2 p.1).1 = some p.2) := by
  refine ⟨?_, ?_, ?_⟩
  · intro ops st2 hnd h p hp
    exact (DirectAddressTable.insertList_spec ops _ st2
      (by simp [DirectAddressTable.initTable]) h).2.2.2 hnd p hp
  · intro hf pt t fuel ops st2 hnd h p hp
    rcases HashTableOpenAddressing.insertListWith_good hf pt t fuel ops _ st2
      (HashTableOpenAddressing.good_initTable hf pt s0 hs)
      (fun q _ => HashTableOpenAddressing.keyLive_replicate s0 q.1) hnd h with
      ⟨hg2, hlive, _, _, _⟩
    exact HashTableOpenAddressing.search_finds hf pt st2 p.1 p.2 hg2 (hlive p hp)
  · intro hf t fuel ops st2 hok hnd h p hp
    rcases HashTableSeparateChaining.scInsertListWith_good hf t hok fuel ops _ st2
      (HashTableSeparateChaining.scgood_initTable hf s0 hs)
      (fun q _ => HashTableSeparateChaining.scFind_replicate hf s0 s0
        (HashTableSeparateChaining.bucketIdx hf q.1 s0) q.1) hnd h with
      ⟨hg2, hfind, _, _⟩
    rw [HashTableSeparateChaining.search_fst_eq_find]
    exact hfind p hp

/-- C2 witness: inserting key 0 with value 5 into a fresh direct-address
table of size 2 and searching it back. -/
theorem C2_witness :
    DirectAddressTable.search (⟨2, [some 5, none]⟩ : DirectAddressTable Int) 0 = some 5 :=
  (C2_round_trip 2 (by norm_num)).1 [(0, 5)] ⟨2, [some 5, none]⟩ (by simp)
    (by norm_num [DirectAddressTable.insertList, DirectAddressTable.insert,
      DirectAddressTable.initTable, List.replicate]) (0, 5) (by simp)

/-! ### Claim C3: re-inserting an existing key -/

/-- C3 (corrected): on separate chaining, re-inserting a present key on any
reachable state updates the value in place, leaves count unchanged and other
keys untouched.  On open addressing this holds on every state reachable
WITHOUT deletes; on general reachable states the claim is false: a tombstone
on the probe path captures the re-insert before it reaches the live entry, so
the key is duplicated and count grows (see the counterexample). -/
theorem C3_update_existing (hf : Int → Int → Int) (t : ℚ) (s0 : Nat) (hs : 0 < s0) :
    (∀ {V : Type} (st st2 : HashTableSeparateChaining V) (fuel : Nat) (k : Int) (v : V),
      HashTableSeparateChaining.hashOk hf →
      SCReach hf t (HashTableSeparateChaining.initTable V s0) st →
      HashTableSeparateChaining.scFind hf st k ≠ none →
      HashTableSeparateChaining.insert hf t fuel st k v = some st2 →
      st2.count = st.count ∧
      (HashTableSeparateChaining.search hf st2 k).1 = some v ∧
      (∀ k2, k2 ≠ k → (HashTableSeparateChaining.search hf st2 k2).1 =
        (HashTableSeparateChaining.search hf st k2).1)) ∧
    (∀ {V : Type} (pt : ProbeType) (st st2 : HashTableOpenAddressing V)
      (fuel : Nat) (k : Int) (v : V),
      OAReachND hf pt t (HashTableOpenAddressing.initTable V s0) st →
      HashTableOpenAddressing.keyLive st.table k →
      HashTableOpenAddressing.insert hf pt t fuel st k v = some st2 →
      st2.count = st.count ∧
      (HashTableOpenAddressing.search hf pt st2 k).1 = some v ∧
      (∀ k2 v2, k2 ≠ k →
        (HashTableOpenAddressing.entryLive st2.table k2 v2 ↔
         HashTableOpenAddressing.entryLive st.table k2 v2))) := by
  constructor
  · intro V st st2 fuel k v hok hreach hfind hins
    have hg := screach_good hf t hok s0 hs st hreach
    rcases HashTableSeparateChaining.scInsert_good hf t hok fuel st st2 k v hg hins with
      ⟨hg2, hfk, hother, _, hsame⟩
    refine ⟨hsame hfind, ?_, ?_⟩
    · rw [HashTableSeparateChaining.search_fst_eq_find]
      exact hfk
    · intro k2 hk2
      rw [HashTableSeparateChaining.search_fst_eq_find,
        HashTableSeparateChaining.search_fst_eq_find]
      exact hother k2 hk2
  · intro V pt st st2 fuel k v hreach hlive hins
    have hg := oareachnd_good hf pt t s0 hs st hreach
    rcases HashTableOpenAddressing.insert_good hf pt t fuel st st2 k v hg hins with
      ⟨hg2, hentry, hcnt, _⟩
    refine ⟨hcnt hlive, ?_, ?_⟩
    · exact HashTableOpenAddressing.search_finds hf pt st2 k v hg2
        ((hentry k v).2 (Or.inl ⟨rfl, rfl⟩))
    · intro k2 v2 hk2
      constructor
      · intro h2
        rcases (hentry k2 v2).1 h2 with ⟨hk, _⟩ | ⟨_, h1⟩
        · exact absurd hk hk2
        · exact h1
      · intro h1
        exact (hentry k2 v2).2 (Or.inr ⟨hk2, h1⟩)

/-- C3 counterexample: on the reachable open-addressing state with a
tombstone in slot 0 and key 4 live in slot 1, inserting key 4 again lands in
the tombstone slot and increments count from 1 to 2 instead of leaving it
unchanged. -/
theorem C3_counterexample :
    OAReach division_hash ProbeType.linear (3/4 : ℚ)
      (HashTableOpenAddressing.initTable Int 4)
      ⟨4, 1, [Slot.deleted, Slot.occupied 4 11, Slot.empty, Slot.empty], 3, 1⟩ ∧
    HashTableOpenAddressing.keyLive
      [Slot.deleted, Slot.occupied 4 (11 : Int), Slot.empty, Slot.empty] 4 ∧
    HashTableOpenAddressing.insert division_hash ProbeType.linear (3/4 : ℚ) 1
      (⟨4, 1, [Slot.deleted, Slot.occupied 4 11, Slot.empty, Slot.empty], 3, 1⟩ :
        HashTableOpenAddressing Int) 4 12 =
      some ⟨4, 2, [Slot.occupied 4 12, Slot.occupied 4 11, Slot.empty, Slot.empty], 4, 1⟩ ∧
    (⟨4, 2, [Slot.occupied 4 12, Slot.occupied 4 11, Slot.empty, Slot.empty], 4, 1⟩ :
      HashTableOpenAddressing Int).count ≠
      (⟨4, 1, [Slot.deleted, Slot.occupied 4 11, Slot.empty, Slot.empty], 3, 1⟩ :
        HashTableOpenAddressing Int).count :=
  ⟨reach_oaA3, ⟨11, 1, rfl⟩, ev_oa_ins3, by decide⟩

/-- C3 witness: re-inserting key 0 with a new value 7 on a reachable chaining
table updates in place with count still 1 and search returning 7. -/
theorem C3_witness :
    (⟨4, 1, [[(0, 7)], [], [], []], 1⟩ : HashTableSeparateChaining Int).count =
      (⟨4, 1, [[(0, 5)], [], [], []], 0⟩ : HashTableSeparateChaining Int).count ∧
    (HashTableSeparateChaining.search division_hash
      (⟨4, 1, [[(0, 7)], [], [], []], 1⟩ : HashTableSeparateChaining Int) 0).1 = some 7 :=
  ⟨((C3_update_existing division_hash 1 4 (by norm_num)).1 _ _ 1 0 7 division_hash_ok
      reach_scS1 (by decide) ev_sc_upd).1,
   ((C3_update_existing division_hash 1 4 (by norm_num)).1 _ _ 1 0 7 division_hash_ok
      reach_scS1 (by decide) ev_sc_upd).2.1⟩

/-! ### Claim C4: per-key uniqueness -/

/-- C4 (corrected): separate-chaining chains never hold two nodes with the
same key, on every reachable state; for open addressing the per-key slot
uniqueness holds on every state reachable WITHOUT deletes, but the full claim
is false: an insert probing through a tombstone can duplicate a key across
two slots (see the counterexample). -/
theorem C4_key_uniqueness (hf : Int → Int → Int) (t : ℚ) (s0 : Nat) (hs : 0 < s0) :
    (∀ {V : Type} (pt : ProbeType) (st : HashTableOpenAddressing V),
      OAReachND hf pt t (HashTableOpenAddressing.initTable V s0) st →
      HashTableOpenAddressing.UniqKeys st.table) ∧
    (∀ {V : Type} (st : HashTableSeparateChaining V),
      HashTableSeparateChaining.hashOk hf →
      SCReach hf t (HashTableSeparateChaining.initTable V s0) st →
      (∀ i, ((st.buckets.getD i []).map Prod.fst).Nodup) ∧
      ((st.buckets.flatten.map Prod.fst).Nodup)) := by
  constructor
  · intro V pt st h
    exact (oareachnd_good hf pt t s0 hs st h).2.2.2.2.1
  · intro V st hok h
    have hg := screach_good hf t hok s0 hs st h
    exact ⟨hg.2.2.2.2, HashTableSeparateChaining.scgood_flatten_nodup hg⟩

/-- C4 counterexample: a reachable open-addressing state holds key 4 in both
slot 0 and slot 1, so occupied slots are not unique per key. -/
theorem C4_counterexample :
    OAReach division_hash ProbeType.linear (3/4 : ℚ)
      (HashTableOpenAddressing.initTable Int 4)
      ⟨4, 2, [Slot.occupied 4 12, Slot.occupied 4 11, Slot.empty, Slot.empty], 4, 1⟩ ∧
    ¬ HashTableOpenAddressing.UniqKeys
      [Slot.occupied 4 (12 : Int), Slot.occupied 4 11, Slot.empty, Slot.empty] :=
  ⟨reach_oaA4, fun h => absurd (h 0 1 4 12 11 rfl rfl) (by norm_num)⟩

/-- C4 witness: the keys of a reachable two-entry chaining table, flattened
across chains, carry no duplicate. -/
theorem C4_witness :
    (((⟨4, 2, [[(0, 5)], [(1, 6)], [], []], 0⟩ :
        HashTableSeparateChaining Int).buckets.flatten).map Prod.fst).Nodup :=
  ((C4_key_uniqueness division_hash 1 4 (by norm_num)).2 _ division_hash_ok reach_scS2).2

/-! ### Claim C5: delete then search -/

/-- C5 (corrected): a failed delete returns False with the state bit-for-bit
unchanged on both tables, unconditionally.  After a successful delete the
immediately following search of the same key reports not-found on every
chaining state and on every open-addressing state reachable WITHOUT deletes;
on general open-addressing states the claim is false, because a duplicated
key survives the delete of its first copy (see the counterexample). -/
theorem C5_delete_then_search (hf : Int → Int → Int) (t : ℚ) (s0 : Nat) (hs : 0 < s0) :
    (∀ {V : Type} (pt : ProbeType) (st : HashTableOpenAddressing V) (k : Int),
      (HashTableOpenAddressing.delete hf pt st k).1 = false →
      (HashTableOpenAddressing.delete hf pt st k).2 = st) ∧
    (∀ {V : Type} (st : HashTableSeparateChaining V) (k : Int),
      (HashTableSeparateChaining.delete hf st k).1 = false →
      (HashTableSeparateChaining.delete hf st k).2 = st) ∧
    (∀ {V : Type} (pt : ProbeType) (st : HashTableOpenAddressing V) (k : Int),
      OAReachND hf pt t (HashTableOpenAddressing.initTable V s0) st →
      (HashTableOpenAddressing.delete hf pt st k).1 = true →
      (HashTableOpenAddressing.search hf pt
        (HashTableOpenAddressing.delete hf pt st k).2 k).1 = none) ∧
    (∀ {V : Type} (st : HashTableSeparateChaining V) (k : Int),
      HashTableSeparateChaining.hashOk hf →
      SCReach hf t (HashTableSeparateChaining.initTable V s0) st →
      (HashTableSeparateChaining.delete hf st k).1 = true →
      (HashTableSeparateChaining.search hf
        (HashTableSeparateChaining.delete hf st k).2 k).1 = none) := by
  refine ⟨?_, ?_, ?_, ?_⟩
  · intro V pt st k h
    exact HashTableOpenAddressing.delete_fail_unchanged hf pt st k h
  · intro V st k h
    exact HashTableSeparateChaining.delete_fail hf st k h
  · intro V pt st k hreach h
    have hg := oareachnd_good hf pt t s0 hs st hreach
    exact HashTableOpenAddressing.delete_success_search_none hf pt st k
      (fun i j v w hi hj => hg.2.2.2.2.1 i j k v w hi hj) h
  · intro V st k hok hreach h
    have hg := screach_good hf t hok s0 hs st hreach
    have hnd := hg.2.2.2.2 (HashTableSeparateChaining.bucketIdx hf k st.size)
    exact HashTableSeparateChaining.scDelete_success_search_none hf st k
      (List.nodup_iff_count_le_one.1 hnd k) h

/-- C5 counterexample: on the reachable open-addressing state holding key 4
twice, delete(4) succeeds yet the immediately following search(4) still
returns the surviving duplicate's value 11. -/
theorem C5_counterexample :
    OAReach division_hash ProbeType.linear (3/4 : ℚ)
      (HashTableOpenAddressing.initTable Int 4)
      ⟨4, 2, [Slot.occupied 4 12, Slot.occupied 4 11, Slot.empty, Slot.empty], 4, 1⟩ ∧
    (HashTableOpenAddressing.delete division_hash ProbeType.linear
      (⟨4, 2, [Slot.occupied 4 12, Slot.occupied 4 11, Slot.empty, Slot.empty], 4, 1⟩ :
        HashTableOpenAddressing Int) 4).1 = true ∧
    (HashTableOpenAddressing.search division_hash ProbeType.linear
      (HashTableOpenAddressing.delete division_hash ProbeType.linear
        (⟨4, 2, [Slot.occupied 4 12, Slot.occupied 4 11, Slot.empty, Slot.empty], 4, 1⟩ :
          HashTableOpenAddressing Int) 4).2 4).1 = some 11 :=
  ⟨reach_oaA4, by rw [ev_oa_del2], by rw [ev_oa_del2]; exact ev_oa_search5⟩

/-- C5 witness: deleting an absent key from an empty two-slot table fails
and leaves the state unchanged. -/
theorem C5_witness :
    (HashTableOpenAddressing.delete division_hash ProbeType.linear
      (⟨2, 0, [Slot.empty, Slot.empty], 0, 0⟩ : HashTableOpenAddressing Int) 0).2 =
      ⟨2, 0, [Slot.empty, Slot.empty], 0, 0⟩ :=
  (C5_delete_then_search division_hash (3/4 : ℚ) 2 (by norm_num)).1 ProbeType.linear
    _ 0 (by decide)

/-! ### Claim C6: probe and comparison counters -/

/-- C6 (corrected): on open addressing, the insert and search loops add
exactly one to the probe counter per probe step and one to the comparison
counter per key comparison, and the counters never influence which slots are
read or written or what any operation returns.  The delete part of the claim
is false: delete probes slots and compares keys but updates neither counter
(see the counterexample); instead both counters pass through delete
untouched. -/
theorem C6_counter_accounting (hf : Int → Int → Int) (pt : ProbeType) (t : ℚ) :
    (∀ {V : Type} (st st2 : HashTableOpenAddressing V) (k : Int) (v : V) (i r : Nat),
      HashTableOpenAddressing.insertLoop hf pt st k v i r = some st2 →
      st2.probe_count = st.probe_count +
        HashTableOpenAddressing.insertSteps hf pt st.size st.table k i r ∧
      st2.comparison_count = st.comparison_count +
        HashTableOpenAddressing.insertComps hf pt st.size st.table k i r) ∧
    (∀ {V : Type} (st : HashTableOpenAddressing V) (k : Int),
      (HashTableOpenAddressing.search hf pt st k).2.probe_count = st.probe_count +
        HashTableOpenAddressing.searchSteps hf pt st.size st.table k 0 st.size ∧
      (HashTableOpenAddressing.search hf pt st k).2.comparison_count =
        st.comparison_count +
        HashTableOpenAddressing.searchComps hf pt st.size st.table k 0 st.size) ∧
    (∀ {V : Type} (st : HashTableOpenAddressing V) (k : Int),
      (HashTableOpenAddressing.delete hf pt st k).2.probe_count = st.probe_count ∧
      (HashTableOpenAddressing.delete hf pt st k).2.comparison_count =
        st.comparison_count) ∧
    (∀ {V : Type} (st : HashTableOpenAddressing V) (p c fuel : Nat) (k : Int) (v : V),
      Option.map HashTableOpenAddressing.core
        (HashTableOpenAddressing.insert hf pt t fuel
          (HashTableOpenAddressing.setCounters st p c) k v) =
      Option.map HashTableOpenAddressing.core
        (HashTableOpenAddressing.insert hf pt t fuel st k v)) ∧
    (∀ {V : Type} (st : HashTableOpenAddressing V) (p c : Nat) (k : Int),
      (HashTableOpenAddressing.search hf pt
        (HashTableOpenAddressing.setCounters st p c) k).1 =
        (HashTableOpenAddressing.search hf pt st k).1 ∧
      HashTableOpenAddressing.core (HashTableOpenAddressing.search hf pt
        (HashTableOpenAddressing.setCounters st p c) k).2 =
        HashTableOpenAddressing.core (HashTableOpenAddressing.search hf pt st k).2) ∧
    (∀ {V : Type} (st : HashTableOpenAddressing V) (p c : Nat) (k : Int),
      (HashTableOpenAddressing.delete hf pt
        (HashTableOpenAddressing.setCounters st p c) k).1 =
        (HashTableOpenAddressing.delete hf pt st k).1 ∧
      HashTableOpenAddressing.core (HashTableOpenAddressing.delete hf pt
        (HashTableOpenAddressing.setCounters st p c) k).2 =
        HashTableOpenAddressing.core (HashTableOpenAddressing.delete hf pt st k).2) := by
  refine ⟨?_, ?_, ?_, ?_, ?_, ?_⟩
  · intro V st st2 k v i r h
    exact HashTableOpenAddressing.insertLoop_counters hf pt r i st st2 k v h
  · intro V st k
    exact HashTableOpenAddressing.searchLoop_counters hf pt st.size 0 st k
  · intro V st k
    exact HashTableOpenAddressing.deleteLoop_counters hf pt st.size 0 st k
  · intro V st p c fuel k v
    exact (HashTableOpenAddressing.insert_congr_all hf pt t fuel).1
      (HashTableOpenAddressing.setCounters st p c) st k v rfl rfl rfl
  · intro V st p c k
    exact HashTableOpenAddressing.searchLoop_congr hf pt st.size 0
      (HashTableOpenAddressing.setCounters st p c) st k rfl rfl rfl
  · intro V st p c k
    exact HashTableOpenAddressing.deleteLoop_congr hf pt st.size 0
      (HashTableOpenAddressing.setCounters st p c) st k rfl rfl rfl

/-- C6 counterexample: delete finds and removes key 0, so it performed a
probe step and a key comparison, yet the probe counter is still 0
afterwards. -/
theorem C6_counterexample :
    (HashTableOpenAddressing.delete division_hash ProbeType.linear
      (⟨1, 1, [Slot.occupied 0 5], 0, 0⟩ : HashTableOpenAddressing Int) 0).1 = true ∧
    (HashTableOpenAddressing.delete division_hash ProbeType.linear
      (⟨1, 1, [Slot.occupied 0 5], 0, 0⟩ : HashTableOpenAddressing Int) 0).2.probe_count
      = 0 :=
  ⟨by decide, by decide⟩

/-- C6 witness: the insert-loop accounting at a concrete placement into an
empty slot: one probe step, no comparison. -/
theorem C6_witness :
    (⟨2, 1, [Slot.occupied 0 3, Slot.empty], 6, 7⟩ :
        HashTableOpenAddressing Int).probe_count =
      (⟨2, 0, [Slot.empty, Slot.empty], 5, 7⟩ :
        HashTableOpenAddressing Int).probe_count +
        HashTableOpenAddressing.insertSteps division_hash ProbeType.linear 2
          ([Slot.empty, Slot.empty] : List (Slot Int)) 0 0 2 ∧
    (⟨2, 1, [Slot.occupied 0 3, Slot.empty], 6, 7⟩ :
        HashTableOpenAddressing Int).comparison_count =
      (⟨2, 0, [Slot.empty, Slot.empty], 5, 7⟩ :
        HashTableOpenAddressing Int).comparison_count +
        HashTableOpenAddressing.insertComps division_hash ProbeType.linear 2
          ([Slot.empty, Slot.empty] : List (Slot Int)) 0 0 2 :=
  (C6_counter_accounting division_hash ProbeType.linear (3/4 : ℚ)).1
    ⟨2, 0, [Slot.empty, Slot.empty], 5, 7⟩ ⟨2, 1, [Slot.occupied 0 3, Slot.empty], 6, 7⟩
    0 3 0 2 (by decide)

/-! ### Claim C7: chain lengths -/

/-- C7 (confirmed): in every reachable separate-chaining state the list
returned by get_chain_lengths has the current size as its length and count as
its element sum. -/
theorem C7_chain_lengths {V : Type} (hf : Int → Int → Int) (t : ℚ) (s0 : Nat)
    (hs : 0 < s0) (hok : HashTableSeparateChaining.hashOk hf)
    (st : HashTableSeparateChaining V)
    (h : SCReach hf t (HashTableSeparateChaining.initTable V s0) st) :
    (HashTableSeparateChaining.get_chain_lengths st).length = st.size ∧
    (HashTableSeparateChaining.get_chain_lengths st).sum = st.count := by
  have hg := screach_good hf t hok s0 hs st h
  constructor
  · simp only [HashTableSeparateChaining.get_chain_lengths, List.length_map]
    exact hg.2.1
  · exact hg.2.2.1.symm

/-- C7 witness: the chain lengths of a reachable one-entry table of size 4
sum to 1 across 4 chains. -/
theorem C7_witness :
    (HashTableSeparateChaining.get_chain_lengths
      (⟨4, 1, [[(0, 5)], [], [], []], 0⟩ : HashTableSeparateChaining Int)).length = 4 ∧
    (HashTableSeparateChaining.get_chain_lengths
      (⟨4, 1, [[(0, 5)], [], [], []], 0⟩ : HashTableSeparateChaining Int)).sum = 1 :=
  C7_chain_lengths division_hash 1 4 (by norm_num) division_hash_ok _ reach_scS1

/-! ### Claim C9: division hash range -/

/-- C9 (confirmed): for every integer key k, including negative k, and every
table size m with 0 < m, division_hash k m lies in the interval from 0
inclusive to m exclusive; Int.emod is floor-mod for a positive modulus, which
matches negative-key behaviour of the source. -/
theorem C9_division_hash_range (key m : Int) (hm : 0 < m) :
    0 ≤ division_hash key m ∧ division_hash key m < m := by
  unfold division_hash
  exact ⟨Int.emod_nonneg key (by omega), Int.emod_lt_of_pos key hm⟩

/-- Witness for C9 at key = -7, m = 3. -/
theorem C9_witness :
    (0 : Int) < 3 ∧ (0 ≤ division_hash (-7) 3 ∧ division_hash (-7) 3 < 3) :=
  ⟨by norm_num, C9_division_hash_range (-7) 3 (by norm_num)⟩

/-! ### Claim C10: the registry has no universal entry -/

/-- C10 (confirmed): the name registry of get_hash_function holds exactly the
seven names division, multiplication, string_simple, string_polynomial,
string_djb2, md5 and bad_clustering; the name universal is not among them,
even though universal_hash exists in the library, so looking it up falls
through to the division-hash default exactly like the unknown name nope. -/
theorem C10_registry_universal_default :
    get_hash_function "universal" = HashChoice.division ∧
    hash_functions_registry.map Prod.fst =
      ["division", "multiplication", "string_simple", "string_polynomial",
       "string_djb2", "md5", "bad_clustering"] ∧
    ("universal" ∈ hash_functions_registry.map Prod.fst) = False ∧
    get_hash_function "nope" = HashChoice.division ∧
    get_hash_function "division" = HashChoice.division ∧
    get_hash_function "multiplication" = HashChoice.multiplication ∧
    get_hash_function "string_simple" = HashChoice.string_simple ∧
    get_hash_function "string_polynomial" = HashChoice.string_polynomial ∧
    get_hash_function "string_djb2" = HashChoice.string_djb2 ∧
    get_hash_function "md5" = HashChoice.md5 ∧
    get_hash_function "bad_clustering" = HashChoice.bad_clustering := by
  refine ⟨by decide, by decide, by simp [hash_functions_registry], by decide, by decide,
    by decide, by decide, by decide, by decide, by decide, by decide⟩

/-! ### Claim C8: direct-address table bounds behaviour -/

/-- C8 (confirmed): on a direct-address table whose backing array has length
size, an out-of-range key makes insert raise (modelled as none, the table
unmutated since the source raises before writing), makes search return
not-found without error, and makes delete a no-op returning the state
unchanged; an in-range key makes insert return normally and store the value at
index key. -/
theorem C8_direct_address_range {V : Type} (st : DirectAddressTable V) (key : Int) (value : V)
    (hw : st.table.length = st.size) :
    (¬ (0 ≤ key ∧ key < (st.size : Int)) →
      DirectAddressTable.insert st key value = none ∧
      DirectAddressTable.search st key = none ∧
      DirectAddressTable.delete st key = st) ∧
    ((0 ≤ key ∧ key < (st.size : Int)) →
      DirectAddressTable.insert st key value =
        some { st with table := st.table.set key.toNat (some value) } ∧
      ∃ st2, DirectAddressTable.insert st key value = some st2 ∧
        st2.table.getD key.toNat none = some value) := by
  constructor
  · intro hout
    refine ⟨?_, ?_, ?_⟩
    · simp [DirectAddressTable.insert, hout]
    · simp [DirectAddressTable.search, hout]
    · simp [DirectAddressTable.delete, hout]
  · intro hin
    have hlt : key.toNat < st.table.length := by
      rw [hw]
      omega
    refine ⟨by simp [DirectAddressTable.insert, hin], ?_⟩
    refine ⟨{ st with table := st.table.set key.toNat (some value) },
      by simp [DirectAddressTable.insert, hin], ?_⟩
    exact getD_set_self st.table key.toNat (some value) none hlt

/-- Witness for C8 on a table of size 3 with the out-of-range key 5 and the
in-range key 1. -/
theorem C8_witness :
    ((DirectAddressTable.initTable Int 3).table.length =
        (DirectAddressTable.initTable Int 3).size ∧
      DirectAddressTable.insert (DirectAddressTable.initTable Int 3) 5 0 = none ∧
      DirectAddressTable.search (DirectAddressTable.initTable Int 3) 5 = none ∧
      DirectAddressTable.delete (DirectAddressTable.initTable Int 3) 5 =
        DirectAddressTable.initTable Int 3) ∧
    (∃ st2, DirectAddressTable.insert (DirectAddressTable.initTable Int 3) 1 7 = some st2 ∧
      st2.table.getD (Int.toNat 1) none = some 7) := by
  have h1 := (C8_direct_address_range (DirectAddressTable.initTable Int 3) 5 (0 : Int)
    (by simp [DirectAddressTable.initTable])).1 (by norm_num [DirectAddressTable.initTable])
  have h2 := ((C8_direct_address_range (DirectAddressTable.initTable Int 3) 1 (7 : Int)
    (by simp [DirectAddressTable.initTable])).2 (by norm_num [DirectAddressTable.initTable])).2
  exact ⟨⟨by simp [DirectAddressTable.initTable], h1.1, h1.2.1, h1.2.2⟩, h2⟩

end HashSpec
